import Mathlib

/-!
Verification of the coin-counting engine of the VC-TP repository.

The development shallowly embeds the C sources (src/lib/vc_coin.cpp,
src/lib/vc_coin_utils.cpp, src/lib/vc_blob.cpp, src/lib/vc_frame_processor.cpp,
src/lib/vc_coin_functions.cpp).  C `int` values are modelled as `Int`;
pixel bytes (`unsigned char`) as `Nat` with an explicit `% 256` where the C
code stores a wider value into a byte; the global arrays `detectedCoins`
and the exclusion list as explicit list-typed state threaded through the
functions; the global frame counter as an explicit argument.
-/

namespace VCTP

/-- One row of the global `detectedCoins[150][5]` table:
`[x, y, tipoMoeda, frameDetectado, contabilizada]` (vc_coin.cpp line 39). -/
structure CoinEntry where
  x : Int
  y : Int
  typ : Int
  lastSeen : Int
  counted : Int
deriving DecidableEq

/-- The cleared entry produced by `memset(&detectedCoins[i][0], 0, 5*sizeof(int))`. -/
def zeroEntry : CoinEntry := ⟨0, 0, 0, 0, 0⟩

/-- The emptiness test used by every scan over the table:
`detectedCoins[i][0] == 0 && detectedCoins[i][1] == 0`. -/
def entryEmpty (e : CoinEntry) : Bool := e.x == 0 && e.y == 0

/-- `dx*dx + dy*dy` for an entry against a query point, as computed in the C scans. -/
def distSqTo (e : CoinEntry) (x y : Int) : Int :=
  (e.x - x) * (e.x - x) + (e.y - y) * (e.y - y)

/-- `const int distThreshold = (coinType >= 7) ? 75 : 50;` (vc_coin.cpp line 144). -/
def distThreshold (coinType : Int) : Int := if coinType ≥ 7 then 75 else 50

/-- `const int frameMemory = (coinType >= 7) ? 120 : 60;` (vc_coin.cpp line 146). -/
def frameMemory (coinType : Int) : Int := if coinType ≥ 7 then 120 else 60

/-- The valid-time-window test of the tracking scan (vc_coin.cpp lines 184-185):
`(currentFrame - detectedCoins[i][3] < frameMemory) || detectedCoins[i][3] > currentFrame`. -/
def timeWindowOk (currentFrame lastSeen mem : Int) : Bool :=
  (currentFrame - lastSeen < mem) || (lastSeen > currentFrame)

/-- `detectedCoins[i][2] >= 4 && detectedCoins[i][2] <= 6` — the provisional
gold classes that the Euro family supersedes. -/
def isGoldType (t : Int) : Bool := 4 ≤ t && t ≤ 6

/-- Predicate of the gold-deletion pre-pass run when `coinType >= 7`
(vc_coin.cpp lines 153-168): an active entry of a gold class within 85px. -/
def goldDelPred (x y : Int) (e : CoinEntry) : Bool :=
  !entryEmpty e && isGoldType e.typ && distSqTo e x y ≤ 85 * 85

/-- First index in the list satisfying `p` (the `for`-loop-with-`break` search idiom). -/
def findFirst (p : α → Bool) : List α → Option Nat
  | [] => none
  | a :: l => if p a then some 0 else (findFirst p l).map (· + 1)

/-- Gold-deletion pre-pass of `trackCoin` (vc_coin.cpp lines 153-168):
clears the FIRST matching entry and breaks. -/
def deleteFirstGold (x y : Int) (coins : List CoinEntry) : List CoinEntry :=
  match findFirst (goldDelPred x y) coins with
  | some i => coins.set i zeroEntry
  | none => coins

/-- Gold-deletion pre-pass of `IsCoinAlreadyDetected` (vc_coin_utils.cpp lines
93-119): same predicate, but the loop has no `break`, so EVERY matching entry
is cleared. -/
def deleteAllGold (x y : Int) (coins : List CoinEntry) : List CoinEntry :=
  coins.map (fun e => if goldDelPred x y e then zeroEntry else e)

/-- Match predicate of the main tracking scan (vc_coin.cpp lines 172-197):
a non-empty entry within the class distance threshold and the valid time window. -/
def matchPred (x y coinType currentFrame : Int) (e : CoinEntry) : Bool :=
  !entryEmpty e &&
  distSqTo e x y ≤ distThreshold coinType * distThreshold coinType &&
  timeWindowOk currentFrame e.lastSeen (frameMemory coinType)

/-- Gold-deletion phase shared by `trackCoin` and `IsCoinAlreadyDetected`:
run only for euro classes (`coinType >= 7`); `deleteAll` selects the
`IsCoinAlreadyDetected` variant (no `break`). -/
def preDelete (deleteAll : Bool) (x y coinType : Int) (coins : List CoinEntry) :
    List CoinEntry :=
  if coinType ≥ 7 then
    (if deleteAll then deleteAllGold x y coins else deleteFirstGold x y coins)
  else coins

/-- The class upgrade applied to a matched entry (vc_coin.cpp 190-192): a euro
detection overwrites a matched provisional gold class. -/
def upgradeTyp (coinType : Int) (e : CoinEntry) : Int :=
  if coinType ≥ 7 ∧ isGoldType e.typ then coinType else e.typ

/-- Search-and-update phase shared by `trackCoin` (vc_coin.cpp 172-224) and
`IsCoinAlreadyDetected` (vc_coin_utils.cpp 123-183): find the first active
entry within the class radius and time window; if found refresh its position
and timestamp (and mark it counted when `countIt` is set and it was not),
otherwise insert into the first empty slot if any.  Returns the table and the
C return value (1 = already counted, 0 = new / not yet counted). -/
def trackScan (x y coinType countIt currentFrame : Int) (coins1 : List CoinEntry) :
    List CoinEntry × Int :=
  match findFirst (matchPred x y coinType currentFrame) coins1 with
  | some i =>
    if countIt ≠ 0 ∧ (coins1.getD i zeroEntry).counted = 0 then
      (coins1.set i { x := x, y := y, typ := upgradeTyp coinType (coins1.getD i zeroEntry),
                      lastSeen := currentFrame, counted := 1 }, 0)
    else
      (coins1.set i { x := x, y := y, typ := upgradeTyp coinType (coins1.getD i zeroEntry),
                      lastSeen := currentFrame,
                      counted := (coins1.getD i zeroEntry).counted },
       (coins1.getD i zeroEntry).counted)
  | none =>
    match findFirst entryEmpty coins1 with
    | some j =>
      (coins1.set j ⟨x, y, coinType, currentFrame, if countIt ≠ 0 then 1 else 0⟩, 0)
    | none => (coins1, 0)

/-- Common body of `trackCoin` (vc_coin.cpp lines 143-225) and
`IsCoinAlreadyDetected` (vc_coin_utils.cpp lines 71-184).  The two C functions
are line-for-line identical except that the gold-deletion pre-pass of
`trackCoin` breaks after the first deletion while the one of
`IsCoinAlreadyDetected` deletes every match; the flag `deleteAll` selects the
variant.  The current frame (read from a global counter in C) is passed
explicitly. -/
def coinTrackCore (deleteAll : Bool) (x y coinType countIt currentFrame : Int)
    (coins : List CoinEntry) : List CoinEntry × Int :=
  trackScan x y coinType countIt currentFrame (preDelete deleteAll x y coinType coins)

/-- `int trackCoin(int x, int y, int coinType, int countIt)` (vc_coin.cpp 143-225). -/
def trackCoin (x y coinType countIt currentFrame : Int) (coins : List CoinEntry) :
    List CoinEntry × Int :=
  coinTrackCore false x y coinType countIt currentFrame coins

/-- `int IsCoinAlreadyDetected(int x, int y, int coinType, int countIt)`
(vc_coin_utils.cpp 71-184). -/
def IsCoinAlreadyDetected (x y coinType countIt currentFrame : Int)
    (coins : List CoinEntry) : List CoinEntry × Int :=
  coinTrackCore true x y coinType countIt currentFrame coins

/-- `INT_MAX`, the initial value of `nearestDistSq`. -/
def INT_MAX : Int := 2147483647

/-- Loop body of `GetLastCoinTypeAtLocation` (vc_coin_utils.cpp 492-507):
skip empty slots, keep the strictly nearest entry within 50px.  The
accumulator pair is `(nearestType, nearestDistSq)`. -/
def lookupStep (x y : Int) (acc : Int × Int) (e : CoinEntry) : Int × Int :=
  if entryEmpty e then acc
  else if distSqTo e x y < acc.2 ∧ distSqTo e x y ≤ 50 * 50 then (e.typ, distSqTo e x y)
  else acc

/-- `int GetLastCoinTypeAtLocation(int x, int y)` (vc_coin_utils.cpp 483-510):
nearest-match read-only query over the tracked table; `nearestDistSq` starts
at `INT_MAX`. -/
def GetLastCoinTypeAtLocation (coins : List CoinEntry) (x y : Int) : Int :=
  (coins.foldl (lookupStep x y) (0, INT_MAX)).1

/-- `int getCoinTypeAtLocation(int x, int y)` (vc_coin.cpp 237-257): its body is
identical, token for token, to `GetLastCoinTypeAtLocation`. -/
def getCoinTypeAtLocation (coins : List CoinEntry) (x y : Int) : Int :=
  GetLastCoinTypeAtLocation coins x y

/-- The exclusion list `excludeList` of `excludeCoin` / `ExcludeCoin`, an array
of `MAX_COINS` coordinate pairs; a pair `(0, 0)` is a free slot. -/
abbrev ExcludeList := List (Int × Int)

/-- Option 0 of `excludeCoin` (vc_coin.cpp 277-286): write the position into
the first free slot and break; no-op when the list is full. -/
def excludeAdd : ExcludeList → Int → Int → ExcludeList
  | [], _, _ => []
  | p :: rest, xc, yc =>
    if p.1 = 0 ∧ p.2 = 0 then (xc, yc) :: rest else p :: excludeAdd rest xc yc

/-- Option 1 of `excludeCoin` (vc_coin.cpp 287-303): clear every non-free slot
within the 30px proximity threshold of the given point. -/
def excludeRemove (l : ExcludeList) (xc yc : Int) : ExcludeList :=
  l.map (fun p =>
    if p.1 = 0 ∧ p.2 = 0 then p
    else if (p.1 - xc) * (p.1 - xc) + (p.2 - yc) * (p.2 - yc) ≤ 30 * 30 then (0, 0)
    else p)

/-- `int excludeCoin(int *excludeList, int xc, int yc, int option)`
(vc_coin.cpp 272-306); the C function always returns 0, so only the updated
list is modelled. -/
def excludeCoin (l : ExcludeList) (xc yc option : Int) : ExcludeList :=
  if option = 0 then excludeAdd l xc yc
  else if option = 1 then excludeRemove l xc yc
  else l

/-- Predicate of `correctGoldCoins` (vc_coin.cpp 329): active entry within 80px
holding a gold class. -/
def correctPred (x y : Int) (e : CoinEntry) : Bool :=
  !entryEmpty e && distSqTo e x y ≤ 80 * 80 && isGoldType e.typ

/-- `void correctGoldCoins(int x, int y, int *counters)` (vc_coin.cpp 318-342):
find the first active gold-class entry within 80px, decrement the matching
denomination counter if positive, clear the entry, break. -/
def correctGoldCoins (x y : Int) (coins : List CoinEntry) (counters : List Int) :
    List CoinEntry × List Int :=
  match findFirst (correctPred x y) coins with
  | some i =>
    let g := (coins.getD i zeroEntry).typ
    let idx := (g - 1).toNat
    let counters' := if counters.getD idx 0 > 0
      then counters.set idx (counters.getD idx 0 - 1) else counters
    (coins.set i zeroEntry, counters')
  | none => (coins, counters)

/-- `void frameCounter(int reset)` (vc_coin.cpp 50-58) acting on the explicit
counter value: reset to 0, or increment and wrap back to 0 above 1000. -/
def frameCounterStep (reset : Int) (fc : Int) : Int :=
  if reset ≠ 0 then 0
  else if fc + 1 > 1000 then 0 else fc + 1

/-- The counting step of the euro path (vc_coin_detection.cpp 597-608): record
the detection with `mark_counted` set, and increment the denomination counter
exactly when the tracker reports "new":
`if (!IsCoinAlreadyDetected(xc, yc, coinType, 1)) counters[counterIdx]++;`. -/
def recordAndCount (x y coinType currentFrame : Int) (counterIdx : Nat)
    (coins : List CoinEntry) (counters : List Int) : List CoinEntry × List Int :=
  let r := IsCoinAlreadyDetected x y coinType 1 currentFrame coins
  (r.1,
   if r.2 = 0 then counters.set counterIdx (counters.getD counterIdx 0 + 1) else counters)

/-- Repeated `record_and_check` calls for one physical object at `(x, y)` of
class `coinType`: each element of `calls` is a pair (current frame value,
`countIt` flag).  The second component counts the calls that reported "new"
(returned 0) with `countIt` set â exactly the calls on which the caller
increments the class's denomination counter. -/
def trackRun (deleteAll : Bool) (x y coinType : Int) (s : List CoinEntry) :
    List (Int × Int) → List CoinEntry × Nat
  | [] => (s, 0)
  | (f, c) :: rest =>
    let r := coinTrackCore deleteAll x y coinType c f s
    let w := trackRun deleteAll x y coinType r.1 rest
    (w.1, (if r.2 = 0 ∧ c ≠ 0 then 1 else 0) + w.2)

/-- The calls of a run stay within the class memory window: successive frame
values are non-decreasing (no wraparound inside the sequence) and each gap is
smaller than the class's memory window. -/
def framesOk (coinType : Int) : Int → List (Int × Int) → Bool
  | _, [] => true
  | f, (g, _) :: rest =>
    (decide (f ≤ g) && decide (g - f < frameMemory coinType)) && framesOk coinType g rest

/-- An entry the tracking scan at `(x, y, coinType)` can no longer match at
frame `f` or any later frame reached without wraparound: an empty slot, an
entry outside the match radius, or a hard-expired entry. -/
def Rejected (x y coinType f : Int) (e : CoinEntry) : Prop :=
  entryEmpty e = true ∨
  distThreshold coinType * distThreshold coinType < distSqTo e x y ∨
  (e.lastSeen ≤ f ∧ frameMemory coinType ≤ f - e.lastSeen)

/-- Run invariant for idempotent counting: after `k` "new with countIt"
reports for the object at `(x, y)`, some entry `i` holds the object's
position, stamped `f`; every entry before `i` is permanently rejected; the
entry's class is never a provisional gold class when the run's class is a
euro class; and `k` plus the one still-possible new report (when the entry is
not yet counted) is at most 1. -/
def TrackInv (x y coinType f : Int) (s : List CoinEntry) (k : Nat) : Prop :=
  ∃ i, i < s.length ∧
    (s.getD i zeroEntry).x = x ∧ (s.getD i zeroEntry).y = y ∧
    (s.getD i zeroEntry).lastSeen = f ∧
    (coinType ≥ 7 → isGoldType (s.getD i zeroEntry).typ = false) ∧
    k + (if (s.getD i zeroEntry).counted = 0 then 1 else 0) ≤ 1 ∧
    ∀ j, j < i → Rejected x y coinType f (s.getD j zeroEntry)

/-! ### The classifier cascade of the two frame drivers (claim C4)

The per-candidate control flow of `processFrame` (vc_frame_processor.cpp
lines 190-206) and of `ProcessImage` (vc_coin_functions.cpp lines 553-563) is
a short-circuiting cascade over the per-family detectors; the booleans below
stand for the success of the respective detector call on the candidate blob. -/

inductive CoinFamily where
  | euro : CoinFamily
  | gold : CoinFamily
  | copper : CoinFamily
deriving DecidableEq

/-- Cascade of `processFrame` (vc_frame_processor.cpp 190-206):
`detectEuroCoins`, then `detectGoldCoins` if not found, then
`detectCopperCoins` if still not found. -/
def processFrameOrder (euroFound goldFound copperFound : Bool) : Option CoinFamily :=
  if euroFound then some .euro
  else if goldFound then some .gold
  else if copperFound then some .copper
  else none

/-- Cascade of `ProcessImage` (vc_coin_functions.cpp 553-563):
`DetectGoldCoinsImproved`, then `DetectBronzeCoinsImproved` if not found, then
`DetectEuroCoinsImproved` if still not found. -/
def processImageOrder (goldFound bronzeFound euroFound : Bool) : Option CoinFamily :=
  if goldFound then some .gold
  else if bronzeFound then some .copper
  else if euroFound then some .euro
  else none

/-! ### Blob records and the shape measures (claims C6, C8)

The `OVC` structure of vc.h (lines 67-75) has `int` fields; `blobInfo` only
ever stores non-negative pixel counts and coordinates in them, so they are
modelled as `Nat`. -/

structure OVC where
  x : Nat
  y : Nat
  width : Nat
  height : Nat
  area : Nat
  xc : Nat
  yc : Nat
  perimeter : Nat
  label : Nat
deriving DecidableEq

/-- The constant `3.14159f` used by all four shape functions
(`static const float PI` in `getCircularity`, literal elsewhere). -/
def PIQ : ℚ := 3.14159

/-- `float getCircularity(OVC *blob)` (vc_coin.cpp 79-89), with `float`
modelled as exact rational arithmetic: return 0 for non-positive perimeter,
otherwise `4*PI*area / perimeter²` clamped above by 1. -/
def getCircularity (b : OVC) : ℚ :=
  if b.perimeter ≤ 0 then 0
  else
    let c := (4 * PIQ * (b.area : ℚ)) / ((b.perimeter : ℚ) * (b.perimeter : ℚ))
    if c > 1 then 1 else c

/-- `float CalculateCircularity(OVC *blob)` (vc_coin_utils.cpp 242-257): the
same computation with the guard written `perimeter == 0`. -/
def CalculateCircularity (b : OVC) : ℚ :=
  if b.perimeter = 0 then 0
  else
    let c := (4 * PIQ * (b.area : ℚ)) / ((b.perimeter : ℚ) * (b.perimeter : ℚ))
    if c > 1 then 1 else c

/-- `float getDiameter(OVC *blob)` (vc_coin.cpp 100-102):
`2 * sqrtf(area / 3.14159f)`, with `float` modelled over the reals. -/
noncomputable def getDiameter (b : OVC) : ℝ :=
  2 * Real.sqrt ((b.area : ℝ) / (3.14159 : ℝ))

/-- `float CalculateCircularDiameter(OVC *blob)` (vc_coin_utils.cpp 268-274):
the same formula. -/
noncomputable def CalculateCircularDiameter (b : OVC) : ℝ :=
  2 * Real.sqrt ((b.area : ℝ) / (3.14159 : ℝ))

/-! ### The raster model and region labeling (claims C5, C6, C7)

`IVC` is the image structure of vc.h (lines 51-59); `data` holds the
`unsigned char` samples as `Nat` values.  `blobLabel` computes
`bytesperline = width * channels` itself; `blobInfo` reads the structure
field.  During labeling the C code stores `int` label values into the 8-bit
`datadst` buffer, which truncates: modelled by an explicit `% 256`.
`labeltable` is modelled as a total function `Nat → Nat` (all entries
calloc-initialised to 0); out-of-range C accesses, which would be undefined
behaviour, read or write the function beyond the C allocation.  Reads of
pixel data use `getD _ 0` (out-of-range reads, undefined in C, give 0). -/

structure IVC where
  data : List Nat
  width : Nat
  height : Nat
  channels : Nat
  levels : Nat
  bytesperline : Nat
deriving DecidableEq

/-- State of the labeling pass: the destination pixel buffer `dd` (indexed by
raw position), the label-equivalence table `lt`, and the next fresh label. -/
structure LState where
  dd : Nat → Nat
  lt : Nat → Nat
  label : Nat

/-- Pointwise function update (an array store). -/
def upd (f : Nat → Nat) (i v : Nat) : Nat → Nat := fun j => if j = i then v else f j

/-- Binary normalisation (vc_blob.cpp 77-79): every non-zero byte becomes 255. -/
def normByte (v : Nat) : Nat := if v ≠ 0 then 255 else v

/-- The border positions cleared by vc_blob.cpp 82-89: first/last column and
first/last row. -/
def isBorderPos (w h p : Nat) : Bool :=
  p % w == 0 || p % w == w - 1 || p / w == 0 || p / w == h - 1

/-- The interior positions visited by the labeling and relabeling loops
(`y` in `[1, height-1)`, `x` in `[1, width-1)`). -/
def interiorPos (w h p : Nat) : Bool :=
  decide (1 ≤ p % w) && decide (p % w < w - 1) &&
  decide (1 ≤ p / w) && decide (p / w < h - 1)

/-- Initial destination buffer of `blobLabel`: `memcpy` from the source,
normalisation to {0, 255}, and border clearing (vc_blob.cpp 74-89), composed
pointwise (border clearing overwrites whatever was there). -/
def initDD (src : IVC) (w h : Nat) : Nat → Nat :=
  fun p => if isBorderPos w h p then 0 else normByte (src.data.getD p 0)

/-- One comparison of the running minimum (vc_blob.cpp 116-121): take the
neighbour's resolved label when the neighbour is labelled and its resolved
label is strictly smaller than the current minimum. -/
def pickLess (s : LState) (p : Nat) (cur : Nat) : Nat :=
  if s.dd p ≠ 0 ∧ s.lt (s.dd p) < cur then s.lt (s.dd p) else cur

/-- The minimum resolved neighbour label `num` (vc_blob.cpp 114-121): start
at 255, take the A-neighbour unconditionally when labelled, then compare B,
C and D in turn. -/
def numOf (s : LState) (pA pB pC pD : Nat) : Nat :=
  pickLess s pD (pickLess s pC (pickLess s pB
    (if s.dd pA ≠ 0 then s.lt (s.dd pA) else 255)))

/-- One merge of the running label-equivalence table (vc_blob.cpp 128-137,
repeated for each of the four neighbours): if the neighbour is labelled and
its resolved label differs from `num`, redirect every table entry in
`[1, label)` that maps to that resolved label to `num`. -/
def mergeOne (dd : Nat → Nat) (num label : Nat) (lt : Nat → Nat) (p : Nat) : Nat → Nat :=
  if dd p ≠ 0 then
    if lt (dd p) ≠ num then
      fun a => if 1 ≤ a ∧ a < label ∧ lt a = lt (dd p) then num else lt a
    else lt
  else lt

/-- The per-pixel body of the first labeling pass (vc_blob.cpp 92-171), at
scan coordinate `(x, y)` with `bytesperline = w`.  Kernel positions:
`A B C` over the pixel, `D` to its left, `X` the pixel itself.  A foreground
pixel with no labelled neighbour gets a fresh label (stored into the 8-bit
buffer, hence `% 256`); otherwise it gets the minimum resolved label of its
labelled neighbours (`num`, initialised to 255, the A-neighbour taken
unconditionally), and the equivalence table is rewritten for each neighbour. -/
def scanStep (w : Nat) (s : LState) (c : Nat × Nat) : LState :=
  let x := c.1
  let y := c.2
  let pA := (y - 1) * w + (x - 1)
  let pB := (y - 1) * w + x
  let pC := (y - 1) * w + (x + 1)
  let pD := y * w + (x - 1)
  let pX := y * w + x
  if s.dd pX ≠ 0 then
    if s.dd pA = 0 ∧ s.dd pB = 0 ∧ s.dd pC = 0 ∧ s.dd pD = 0 then
      { dd := upd s.dd pX (s.label % 256),
        lt := upd s.lt s.label s.label,
        label := s.label + 1 }
    else
      let num := numOf s pA pB pC pD
      let dd1 := upd s.dd pX (num % 256)
      let lt1 := upd s.lt num num
      let lt2 := mergeOne dd1 num s.label lt1 pA
      let lt3 := mergeOne dd1 num s.label lt2 pB
      let lt4 := mergeOne dd1 num s.label lt3 pC
      let lt5 := mergeOne dd1 num s.label lt4 pD
      { dd := dd1, lt := lt5, label := s.label }
  else s

/-- One row of the labeling pass: `x` from 1 to `width - 2`. -/
def scanRow (w y : Nat) (s : LState) : LState :=
  (List.range' 1 (w - 2)).foldl (fun s x => scanStep w s (x, y)) s

/-- The full labeling pass: rows 1 to `height - 2`. -/
def scanAll (w h : Nat) (s : LState) : LState :=
  (List.range' 1 (h - 2)).foldl (fun s y => scanRow w y s) s

/-- The relabeling pass (vc_blob.cpp 174-181): every non-zero interior pixel
is replaced by its resolved label.  The loop writes each interior position
exactly once, reading only that position and the (unmodified) table, so it is
the pointwise function below. -/
def relabelDD (s : LState) (w h : Nat) : Nat → Nat :=
  fun p => if interiorPos w h p = true ∧ s.dd p ≠ 0 then s.lt (s.dd p) else s.dd p

/-- The duplicate-removal double loop (vc_blob.cpp 185-189): for `a` from 1
while `a < label - 1`, for `b` from `a + 1` while `b < label`, zero
`labeltable[b]` when it equals `labeltable[a]`. -/
def dedupLT (lt : Nat → Nat) (label : Nat) : Nat → Nat :=
  (List.range' 1 (label - 2)).foldl
    (fun lt a => (List.range' (a + 1) (label - (a + 1))).foldl
      (fun lt2 b => if lt2 a = lt2 b then upd lt2 b 0 else lt2) lt) lt

/-- The counting pass (vc_blob.cpp 192-198): collect the surviving non-zero
table entries for `a` in `[1, label)`, in order. -/
def collectLabels (lt : Nat → Nat) (label : Nat) : List Nat :=
  ((List.range' 1 (label - 1)).filter (fun a => lt a ≠ 0)).map lt

/-- `OVC *blobLabel(IVC *src, IVC *dst, int *nlabels)` (vc_blob.cpp 44-215).
Returns (the labels of the returned blob records — all other fields are
calloc-zeroed — or `none` for NULL), the destination image, and the value of
`*nlabels` (unchanged when the function returns before writing it).  NULL is
returned both on validation failure (before any write to `dst`) and for a
valid input with zero regions (after writing `dst` and `*nlabels = 0`). -/
def blobLabel (src dst : IVC) (nlabels : Int) : Option (List Nat) × IVC × Int :=
  if src.width = 0 ∨ src.height = 0 ∨ src.data = [] then (none, dst, nlabels)
  else if src.width ≠ dst.width ∨ src.height ≠ dst.height ∨ src.channels ≠ dst.channels then
    (none, dst, nlabels)
  else if src.channels ≠ 1 then (none, dst, nlabels)
  else
    let w := src.width
    let h := src.height
    let s1 := scanAll w h ⟨initDD src w h, fun _ => 0, 1⟩
    let ddR := relabelDD s1 w h
    let labs := collectLabels (dedupLT s1.lt s1.label) s1.label
    let dst1 : IVC := { dst with data := (List.range (w * h)).map ddR }
    if labs.length = 0 then (none, dst1, 0)
    else (some labs, dst1, (labs.length : Int))

/-- Accumulator of `blobInfo` for one blob: area, perimeter, centroid sums
and bounding-box extremes (vc_blob.cpp 253-262). -/
structure BlobAcc where
  area : Nat
  perimeter : Nat
  sumx : Nat
  sumy : Nat
  xmin : Nat
  ymin : Nat
  xmax : Nat
  ymax : Nat

/-- The perimeter test of vc_blob.cpp 286-289: some 4-neighbour of `pos`
carries a different value than the blob's label. -/
def isBoundaryAt (data : List Nat) (bpl lab pos : Nat) : Bool :=
  !(data.getD (pos - 1) 0 == lab) || !(data.getD (pos + 1) 0 == lab) ||
  !(data.getD (pos - bpl) 0 == lab) || !(data.getD (pos + bpl) 0 == lab)

/-- The per-pixel body of `blobInfo` (vc_blob.cpp 266-294) for one blob. -/
def blobInfoStep (data : List Nat) (bpl lab : Nat) (acc : BlobAcc) (c : Nat × Nat) :
    BlobAcc :=
  let pos := c.2 * bpl + c.1
  if data.getD pos 0 = lab then
    { area := acc.area + 1,
      perimeter := acc.perimeter + (if isBoundaryAt data bpl lab pos then 1 else 0),
      sumx := acc.sumx + c.1,
      sumy := acc.sumy + c.2,
      xmin := min acc.xmin c.1,
      ymin := min acc.ymin c.2,
      xmax := max acc.xmax c.1,
      ymax := max acc.ymax c.2 }
  else acc

/-- The interior scan coordinates of `blobInfo` in row-major order:
`y` in `[1, height-1)`, `x` in `[1, width-1)`. -/
def interiorCoords (w h : Nat) : List (Nat × Nat) :=
  (List.range' 1 (h - 2)).foldr
    (fun y acc => ((List.range' 1 (w - 2)).map (fun x => (x, y))) ++ acc) []

/-- The per-blob computation of `blobInfo` (vc_blob.cpp 253-305): accumulate
over every interior pixel and finalise the record.  The bounding-box width
and height are `(xmax - xmin) + 1` in C `int` arithmetic; for a region with
no pixel the C result is negative while this `Nat` model truncates — the
claims under verification do not concern that case.  The centroid divides by
`VC_MAX(area, 1)`. -/
def blobInfoOne (src : IVC) (lab : Nat) : OVC :=
  let bpl := src.bytesperline
  let acc := (interiorCoords src.width src.height).foldl (blobInfoStep src.data bpl lab)
    ⟨0, 0, 0, 0, src.width - 1, src.height - 1, 0, 0⟩
  { x := acc.xmin, y := acc.ymin,
    width := acc.xmax - acc.xmin + 1, height := acc.ymax - acc.ymin + 1,
    area := acc.area,
    xc := acc.sumx / max acc.area 1, yc := acc.sumy / max acc.area 1,
    perimeter := acc.perimeter, label := lab }

/-- `int blobInfo(IVC *src, OVC *blobs, int nblobs)` (vc_blob.cpp 237-308):
validate, then fill one record per blob label; `none` models the C error
return 0. -/
def blobInfo (src : IVC) (labels : List Nat) : Option (List OVC) :=
  if src.width = 0 ∨ src.height = 0 ∨ src.data = [] then none
  else if src.channels ≠ 1 then none
  else some (labels.map (blobInfoOne src))

/-- One pair of raster coordinates is unproblematic for isolation: one of the
two pixels is background, or they are the same pixel, or they are not
8-adjacent (they differ by at least 2 in some coordinate). -/
def isoPairOk (w : Nat) (norm : Nat → Nat) (x y u v : Nat) : Bool :=
  decide (norm (y * w + x) = 0) || decide (norm (v * w + u) = 0) ||
  (decide (x = u) && decide (y = v)) ||
  decide (u + 1 < x) || decide (x + 1 < u) || decide (v + 1 < y) || decide (y + 1 < v)

/-- A normalised raster whose foreground pixels are pairwise non-8-adjacent:
every foreground pixel is a one-pixel connected component of its own.  Stated
over the normalised buffer (`initDD`), i.e. after border clearing. -/
@[reducible] def IsolatedFg (w h : Nat) (norm : Nat → Nat) : Prop :=
  ∀ x, x < w → ∀ y, y < h → ∀ u, u < w → ∀ v, v < h → isoPairOk w norm x y u v = true

instance (w h : Nat) (norm : Nat → Nat) : Decidable (IsolatedFg w h norm) :=
  inferInstanceAs (Decidable (∀ x, x < w → ∀ y, y < h → ∀ u, u < w → ∀ v, v < h →
    isoPairOk w norm x y u v = true))

/-- Invariant of the first labeling pass of `blobLabel` over the normalised
input `norm`, after the interior pixels satisfying `procd` have been scanned:
the fresh-label counter is at least 1; the equivalence table maps allocated
labels to allocated labels; border pixels stay 0; unscanned interior pixels
still hold their normalised value; scanned interior pixels hold 0 for
background and an allocated label for foreground; and when the foreground is
pairwise isolated (`iso`), the table is the identity on allocated labels and
scanned foreground pixels hold pairwise distinct labels. -/
def ScanInv (w h : Nat) (norm : Nat → Nat) (iso : Prop) (procd : Nat → Nat → Prop)
    (s : LState) : Prop :=
  1 ≤ s.label ∧
  (∀ a, 1 ≤ a → a < s.label → 1 ≤ s.lt a ∧ s.lt a < s.label) ∧
  (∀ p, isBorderPos w h p = true → s.dd p = 0) ∧
  (∀ x y, 1 ≤ x → x ≤ w - 2 → 1 ≤ y → y ≤ h - 2 → ¬ procd x y →
    s.dd (y * w + x) = norm (y * w + x)) ∧
  (∀ x y, 1 ≤ x → x ≤ w - 2 → 1 ≤ y → y ≤ h - 2 → procd x y →
    (norm (y * w + x) = 0 → s.dd (y * w + x) = 0) ∧
    (norm (y * w + x) ≠ 0 → 1 ≤ s.dd (y * w + x) ∧ s.dd (y * w + x) < s.label)) ∧
  (iso → ∀ a, 1 ≤ a → a < s.label → s.lt a = a) ∧
  (iso → ∀ x y u v, 1 ≤ x → x ≤ w - 2 → 1 ≤ y → y ≤ h - 2 →
    1 ≤ u → u ≤ w - 2 → 1 ≤ v → v ≤ h - 2 → procd x y → procd u v →
    norm (y * w + x) ≠ 0 → norm (v * w + u) ≠ 0 → ¬(x = u ∧ y = v) →
    s.dd (y * w + x) ≠ s.dd (v * w + u))

/-! ### Basic lemmas about list reads, writes and the first-match search -/

theorem getD_set_self (l : List α) (n : Nat) (a d : α) (h : n < l.length) :
    (l.set n a).getD n d = a := by
  induction l generalizing n with
  | nil => simp at h
  | cons b l ih =>
    cases n with
    | zero => simp [List.set]
    | succ m =>
      simp only [List.set, List.getD_cons_succ]
      exact ih m (by simpa using h)

theorem getD_set_ne (l : List α) (n m : Nat) (a d : α) (h : n ≠ m) :
    (l.set n a).getD m d = l.getD m d := by
  induction l generalizing n m with
  | nil => simp [List.set]
  | cons b l ih =>
    cases n with
    | zero =>
      cases m with
      | zero => exact absurd rfl h
      | succ k => simp [List.set]
    | succ n' =>
      cases m with
      | zero => simp [List.set]
      | succ k =>
        simp only [List.set, List.getD_cons_succ]
        exact ih n' k (by omega)

theorem findFirst_some_lt {p : α → Bool} {l : List α} {i : Nat}
    (h : findFirst p l = some i) : i < l.length := by
  induction l generalizing i with
  | nil => simp [findFirst] at h
  | cons a l ih =>
    by_cases hp : p a
    · simp [findFirst, hp] at h
      simp [List.length_cons]
      omega
    · simp only [findFirst, hp, if_neg, ite_false, Bool.false_eq_true] at h
      cases hfl : findFirst p l with
      | none => rw [hfl] at h; simp at h
      | some k =>
        rw [hfl] at h
        simp at h
        have := ih hfl
        simp [List.length_cons]
        omega

theorem findFirst_sat {p : α → Bool} {l : List α} {i : Nat} (d : α)
    (h : findFirst p l = some i) : p (l.getD i d) = true := by
  induction l generalizing i with
  | nil => simp [findFirst] at h
  | cons a l ih =>
    by_cases hp : p a
    · simp [findFirst, hp] at h
      subst h
      simpa using hp
    · simp only [findFirst, hp, ite_false, Bool.false_eq_true, if_neg] at h
      cases hfl : findFirst p l with
      | none => rw [hfl] at h; simp at h
      | some k =>
        rw [hfl] at h
        simp at h
        subst h
        simpa using ih hfl

theorem findFirst_min {p : α → Bool} {l : List α} {i : Nat} (d : α)
    (h : findFirst p l = some i) : ∀ j, j < i → p (l.getD j d) = false := by
  induction l generalizing i with
  | nil => simp [findFirst] at h
  | cons a l ih =>
    by_cases hp : p a
    · simp [findFirst, hp] at h
      omega
    · simp only [findFirst, hp, ite_false, Bool.false_eq_true, if_neg] at h
      cases hfl : findFirst p l with
      | none => rw [hfl] at h; simp at h
      | some k =>
        rw [hfl] at h
        simp at h
        subst h
        intro j hj
        cases j with
        | zero => simpa using hp
        | succ j' =>
          simp only [List.getD_cons_succ]
          exact ih hfl j' (by omega)

theorem findFirst_eq_some {p : α → Bool} {l : List α} {i : Nat} (d : α)
    (hlen : i < l.length) (hsat : p (l.getD i d) = true)
    (hmin : ∀ j, j < i → p (l.getD j d) = false) : findFirst p l = some i := by
  induction l generalizing i with
  | nil => simp at hlen
  | cons a l ih =>
    cases i with
    | zero => simp [findFirst, List.getD_cons_zero] at hsat ⊢; simp [hsat]
    | succ i' =>
      have h0 : p a = false := by simpa using hmin 0 (by omega)
      have : findFirst p l = some i' := by
        refine ih (by simpa using hlen) (by simpa using hsat) ?_
        intro j hj
        have := hmin (j + 1) (by omega)
        simpa using this
      simp [findFirst, h0, this]

theorem findFirst_eq_none {p : α → Bool} {l : List α} (d : α)
    (h : findFirst p l = none) : ∀ j, j < l.length → p (l.getD j d) = false := by
  induction l with
  | nil => intro j hj; simp at hj
  | cons a l ih =>
    by_cases hp : p a
    · simp [findFirst, hp] at h
    · simp only [findFirst, hp, ite_false, Bool.false_eq_true, if_neg] at h
      cases hfl : findFirst p l with
      | some k => rw [hfl] at h; simp at h
      | none =>
        intro j hj
        cases j with
        | zero => simpa using hp
        | succ j' =>
          simp only [List.getD_cons_succ]
          exact ih hfl j' (by simpa using hj)

theorem findFirst_none_of {p : α → Bool} {l : List α}
    (h : ∀ a ∈ l, p a = false) : findFirst p l = none := by
  induction l with
  | nil => rfl
  | cons a l ih =>
    have ha : p a = false := h a (by simp)
    simp [findFirst, ha, ih fun b hb => h b (by simp [hb])]

theorem getD_map_fix {f : α → α} {d : α} (hf : f d = d) (l : List α) (n : Nat) :
    (l.map f).getD n d = f (l.getD n d) := by
  induction l generalizing n with
  | nil => simp [hf]
  | cons a l ih =>
    cases n with
    | zero => simp
    | succ m => simpa using ih m

theorem mem_getD {l : List α} {a : α} (d : α) (h : a ∈ l) :
    ∃ i, i < l.length ∧ l.getD i d = a := by
  induction l with
  | nil => simp at h
  | cons b l ih =>
    rcases List.mem_cons.1 h with rfl | h'
    · exact ⟨0, by simp, rfl⟩
    · obtain ⟨i, hi, hget⟩ := ih h'
      exact ⟨i + 1, by simp; omega, by simpa using hget⟩

theorem filter_set_invisible {p : α → Bool} {l : List α} {j : Nat} {a d : α}
    (hj : j < l.length) (hold : p (l.getD j d) = false) (hnew : p a = false) :
    (l.set j a).filter p = l.filter p := by
  induction l generalizing j with
  | nil => simp at hj
  | cons b l ih =>
    cases j with
    | zero =>
      simp only [List.getD_cons_zero] at hold
      simp [List.set, List.filter, hold, hnew]
    | succ m =>
      simp only [List.getD_cons_succ] at hold
      simp only [List.set, List.filter]
      rw [ih (by simpa using hj) hold]

theorem map_if_id_of_mem {p : α → Bool} {z : α} (l : List α)
    (h : ∀ a ∈ l, p a = false) :
    l.map (fun a => if p a then z else a) = l := by
  induction l with
  | nil => rfl
  | cons a l ih =>
    have h0 : p a = false := h a (by simp)
    simp only [List.map, h0, Bool.false_eq_true, if_false,
      ih fun b hb => h b (by simp [hb])]

theorem findFirst_isSome {p : α → Bool} {l : List α} (d : α) (i : Nat)
    (hi : i < l.length) (hp : p (l.getD i d) = true) : (findFirst p l).isSome = true := by
  induction l generalizing i with
  | nil => simp at hi
  | cons a l ih =>
    by_cases ha : p a
    · simp [findFirst, ha]
    · cases i with
      | zero => simp only [List.getD_cons_zero] at hp; exact absurd hp (by simpa using ha)
      | succ m =>
        have hrec := ih m (by simpa using hi) (by simpa using hp)
        simp only [findFirst, ha, Bool.false_eq_true, if_false]
        cases hfl : findFirst p l with
        | none => rw [hfl] at hrec; simp at hrec
        | some k => simp

theorem preDelete_eq_self {da : Bool} {x y t : Int} {s : List CoinEntry}
    (h : ∀ a ∈ s, goldDelPred x y a = false) : preDelete da x y t s = s := by
  unfold preDelete
  split
  · cases da
    · simp only [Bool.false_eq_true, if_false, deleteFirstGold, findFirst_none_of h]
    · simp only [if_true]
      exact map_if_id_of_mem s h
  · rfl

theorem trackScan_insert {x y t c f : Int} {s : List CoinEntry} {j0 : Nat}
    (hnom : findFirst (matchPred x y t f) s = none)
    (hemp : findFirst entryEmpty s = some j0) :
    trackScan x y t c f s = (s.set j0 ⟨x, y, t, f, if c ≠ 0 then 1 else 0⟩, 0) := by
  simp only [trackScan, hnom, hemp]

theorem trackScan_full {x y t c f : Int} {s : List CoinEntry}
    (hnom : findFirst (matchPred x y t f) s = none)
    (hempn : findFirst entryEmpty s = none) :
    trackScan x y t c f s = (s, 0) := by
  simp only [trackScan, hnom, hempn]

theorem trackScan_mark {x y t c f : Int} {s : List CoinEntry} {i : Nat}
    (hfound : findFirst (matchPred x y t f) s = some i)
    (hc : c ≠ 0) (hcnt : (s.getD i zeroEntry).counted = 0) :
    trackScan x y t c f s =
      (s.set i ⟨x, y, upgradeTyp t (s.getD i zeroEntry), f, 1⟩, 0) := by
  simp only [trackScan, hfound]
  rw [if_pos ⟨hc, hcnt⟩]

theorem trackScan_found_keep {x y t c f : Int} {s : List CoinEntry} {i : Nat}
    (hfound : findFirst (matchPred x y t f) s = some i)
    (h : ¬(c ≠ 0 ∧ (s.getD i zeroEntry).counted = 0)) :
    trackScan x y t c f s =
      (s.set i ⟨x, y, upgradeTyp t (s.getD i zeroEntry), f,
        (s.getD i zeroEntry).counted⟩, (s.getD i zeroEntry).counted) := by
  simp only [trackScan, hfound]
  rw [if_neg h]

/-- An entry that is empty, or active but farther than 85px from the query
point, can neither be deleted by the gold pre-pass nor matched by the scan. -/
theorem untrackable_entry {x y t f : Int} {e : CoinEntry}
    (hfar : entryEmpty e = false → 85 * 85 < distSqTo e x y) :
    goldDelPred x y e = false ∧ matchPred x y t f e = false := by
  by_cases hee : entryEmpty e
  · constructor <;> simp [goldDelPred, matchPred, hee]
  · have hd := hfar (by simpa using hee)
    have hthr : distThreshold t * distThreshold t ≤ 85 * 85 := by
      simp only [distThreshold]
      split <;> decide
    constructor
    · simp only [goldDelPred, Bool.and_eq_false_iff]
      right
      have : ¬ (distSqTo e x y ≤ 85 * 85) := by omega
      simpa using this
    · simp only [matchPred, Bool.and_eq_false_iff]
      left
      right
      have : ¬ (distSqTo e x y ≤ distThreshold t * distThreshold t) := by
        intro hc
        have := le_trans hc hthr
        omega
      simpa using this

/-- A freshly inserted euro entry (class 7 or 8) never satisfies the
provisional-gold correction predicate. -/
theorem correctPred_euro_false {x y cx cy f t : Int} (ht : 7 ≤ t) :
    correctPred x y ⟨cx, cy, t, f, 1⟩ = false := by
  simp only [correctPred, Bool.and_eq_false_iff]
  right
  have : ¬ (4 ≤ t ∧ t ≤ 6) := by omega
  simp only [isGoldType]
  simpa using by omega

/-- An empty entry never satisfies the correction predicate. -/
theorem correctPred_empty_false {x y : Int} {e : CoinEntry}
    (hee : entryEmpty e = true) : correctPred x y e = false := by
  simp [correctPred, hee]

/-- An active entry farther than 85px never satisfies the correction
predicate (whose radius is 80px). -/
theorem correctPred_far_false {x y : Int} {e : CoinEntry}
    (hfar : 85 * 85 < distSqTo e x y) : correctPred x y e = false := by
  simp only [correctPred, Bool.and_eq_false_iff]
  left
  right
  have : ¬ (distSqTo e x y ≤ 80 * 80) := by omega
  simpa using this

/-! ### Claim C3: wraparound safety -/

/-- C3.  Wraparound safety: an entry stamped at frame 999 is accepted by the
valid-time-window test when the current frame is 2 (after the counter wrapped
at its bound), for every coin class (both memory windows, 60 and 120, exceed
the wrapped gap); the tracking scan of `record_and_check` therefore matches
such an entry whenever it is active and within the class match radius; and the
membership test is exactly `(current - last_seen < memory) ∨ (last_seen >
current)`. -/
theorem C3_wraparound_safety :
    (∀ coinType : Int, timeWindowOk 2 999 (frameMemory coinType) = true) ∧
    (∀ (x y coinType : Int) (e : CoinEntry), entryEmpty e = false →
      distSqTo e x y ≤ distThreshold coinType * distThreshold coinType →
      e.lastSeen = 999 → matchPred x y coinType 2 e = true) ∧
    (∀ current lastSeen mem : Int,
      timeWindowOk current lastSeen mem = true ↔
        (current - lastSeen < mem ∨ lastSeen > current)) := by
  refine ⟨?_, ?_, ?_⟩
  · intro t
    simp only [timeWindowOk, frameMemory]
    split <;> decide
  · intro x y t e hemp hdist hls
    simp only [matchPred, hemp, Bool.not_false, Bool.true_and, hls,
      Bool.and_eq_true, decide_eq_true_eq]
    constructor
    · exact hdist
    · simp only [timeWindowOk, frameMemory]
      split <;> decide
  · intro cur ls mem
    simp [timeWindowOk]

/-- Witness for C3 at the concrete entry of the spec scenario. -/
theorem C3_wraparound_safety_witness :
    matchPred 200 200 7 2 ⟨200, 200, 7, 999, 1⟩ = true :=
  C3_wraparound_safety.2.1 200 200 7 ⟨200, 200, 7, 999, 1⟩ (by decide) (by decide) rfl

/-! ### Claim C4: classifier priority order -/

/-- C4 counterexample.  The claim states that for every candidate the
per-family classifiers are tried with the bimetallic/euro family first, so a
candidate on which the euro detector succeeds would always be claimed by the
euro family.  In `ProcessImage` (vc_coin_functions.cpp 553-563) the gold
detector is tried first: with the gold detector succeeding the candidate is
claimed by the gold family even when the euro detector would succeed. -/
theorem C4_priority_counterexample :
    ¬ (∀ goldFound bronzeFound euroFound : Bool, euroFound = true →
        processImageOrder goldFound bronzeFound euroFound = some CoinFamily.euro) := by
  decide

/-- C4 amended.  Each driver tries the per-family classifiers in a fixed
short-circuiting priority order, but the orders differ: `processFrame`
(vc_frame_processor.cpp 190-206) tries euro, then gold, then copper — the
bimetallic family first — while `ProcessImage` (vc_coin_functions.cpp
553-563) tries gold, then bronze/copper, then euro.  In both, the first
success short-circuits the remaining attempts for that candidate. -/
theorem C4_classifier_priority :
    (∀ g c : Bool, processFrameOrder true g c = some CoinFamily.euro) ∧
    (∀ c : Bool, processFrameOrder false true c = some CoinFamily.gold) ∧
    processFrameOrder false false true = some CoinFamily.copper ∧
    processFrameOrder false false false = none ∧
    (∀ b e : Bool, processImageOrder true b e = some CoinFamily.gold) ∧
    (∀ e : Bool, processImageOrder false true e = some CoinFamily.copper) ∧
    processImageOrder false false true = some CoinFamily.euro ∧
    processImageOrder false false false = none := by
  decide

/-! ### Claim C8: shape-measure totality -/

/-- C8.  Circularity is `4π·area/perimeter²` clamped above by 1 and returns 0
when the perimeter is 0 (in both implementations); it always lies in `[0, 1]`;
when the perimeter is non-zero the denominator `perimeter²` is non-zero, so no
division by zero occurs; and the circular-equivalent diameter
`2·sqrt(area/π)` is 0 exactly on zero-area regions (both implementations). -/
theorem C8_shape_measure_totality :
    (∀ b : OVC, b.perimeter = 0 → getCircularity b = 0 ∧ CalculateCircularity b = 0) ∧
    (∀ b : OVC, 0 ≤ getCircularity b ∧ getCircularity b ≤ 1) ∧
    (∀ b : OVC, b.perimeter ≠ 0 →
      ((b.perimeter : ℚ) * (b.perimeter : ℚ) ≠ 0 ∧
       getCircularity b =
         min ((4 * PIQ * (b.area : ℚ)) / ((b.perimeter : ℚ) * (b.perimeter : ℚ))) 1)) ∧
    (∀ b : OVC, CalculateCircularity b = getCircularity b) ∧
    (∀ b : OVC, b.area = 0 → getDiameter b = 0 ∧ CalculateCircularDiameter b = 0) ∧
    (∀ b : OVC, getDiameter b = 0 → b.area = 0) := by
  have hpi : (0 : ℚ) < PIQ := by norm_num [PIQ]
  refine ⟨?_, ?_, ?_, ?_, ?_, ?_⟩
  · intro b hb
    simp [getCircularity, CalculateCircularity, hb]
  · intro b
    by_cases hb : b.perimeter = 0
    · simp [getCircularity, hb]
    · have hpos : (0:ℚ) < (b.perimeter : ℚ) * (b.perimeter : ℚ) := by
        have : (0:ℚ) < (b.perimeter : ℚ) := by
          exact_mod_cast Nat.pos_of_ne_zero hb
        positivity
      have hnn : (0:ℚ) ≤ (4 * PIQ * (b.area : ℚ)) / ((b.perimeter : ℚ) * (b.perimeter : ℚ)) := by
        apply div_nonneg _ (le_of_lt hpos)
        positivity
      simp only [getCircularity, if_neg (by omega : ¬ b.perimeter ≤ 0)]
      by_cases hgt : (4 * PIQ * (b.area : ℚ)) / ((b.perimeter : ℚ) * (b.perimeter : ℚ)) > 1
      · rw [if_pos hgt]
        norm_num
      · rw [if_neg hgt]
        exact ⟨hnn, not_lt.1 hgt⟩
  · intro b hb
    have hpos : (0:ℚ) < (b.perimeter : ℚ) * (b.perimeter : ℚ) := by
      have : (0:ℚ) < (b.perimeter : ℚ) := by exact_mod_cast Nat.pos_of_ne_zero hb
      positivity
    refine ⟨ne_of_gt hpos, ?_⟩
    simp only [getCircularity, if_neg (by omega : ¬ b.perimeter ≤ 0)]
    rcases le_or_lt ((4 * PIQ * (b.area : ℚ)) / ((b.perimeter : ℚ) * (b.perimeter : ℚ))) 1 with h | h
    · rw [if_neg (not_lt.2 h), min_eq_left h]
    · rw [if_pos h, min_eq_right (le_of_lt h)]
  · intro b
    by_cases hb : b.perimeter = 0
    · simp [getCircularity, CalculateCircularity, hb]
    · simp [getCircularity, CalculateCircularity, hb, if_neg (by omega : ¬ b.perimeter ≤ 0)]
  · intro b hb
    simp [getDiameter, CalculateCircularDiameter, hb]
  · intro b hb
    by_contra hne
    have hpos : (0:ℝ) < (b.area : ℝ) / (3.14159 : ℝ) := by
      have : (0:ℝ) < (b.area : ℝ) := by exact_mod_cast Nat.pos_of_ne_zero hne
      positivity
    have := Real.sqrt_pos.2 hpos
    simp only [getDiameter] at hb
    nlinarith

/-- Witness for C8 at a zero-perimeter, zero-area blob. -/
theorem C8_shape_measure_totality_witness :
    getCircularity ⟨0, 0, 0, 0, 0, 0, 0, 0, 0⟩ = 0 ∧
    getDiameter ⟨0, 0, 0, 0, 0, 0, 0, 0, 0⟩ = 0 :=
  ⟨(C8_shape_measure_totality.1 _ rfl).1,
   (C8_shape_measure_totality.2.2.2.2.1 _ rfl).1⟩

/-! ### Claim C9: lookup_class purity and nearest-match behaviour -/

theorem lookup_go (x y : Int) : ∀ (l : List CoinEntry) (acc : Int × Int),
    (l.foldl (lookupStep x y) acc = acc ∧
      ∀ e ∈ l, entryEmpty e = false →
        ¬(distSqTo e x y < acc.2 ∧ distSqTo e x y ≤ 50 * 50)) ∨
    (∃ e ∈ l, entryEmpty e = false ∧ distSqTo e x y ≤ 50 * 50 ∧
      l.foldl (lookupStep x y) acc = (e.typ, distSqTo e x y) ∧
      distSqTo e x y < acc.2 ∧
      ∀ e' ∈ l, entryEmpty e' = false → distSqTo e' x y ≤ 50 * 50 →
        (l.foldl (lookupStep x y) acc).2 ≤ distSqTo e' x y) := by
  intro l
  induction l with
  | nil => intro acc; left; exact ⟨rfl, by simp⟩
  | cons a l ih =>
    intro acc
    by_cases ha : entryEmpty a
    · have hstep : lookupStep x y acc a = acc := by simp [lookupStep, ha]
      rcases ih acc with ⟨heq, hnone⟩ | ⟨e, hm, hne, h25, heq, hlt, hmin⟩
      · left
        refine ⟨by simp [List.foldl_cons, hstep, heq], ?_⟩
        intro e he hee
        rcases List.mem_cons.1 he with rfl | he'
        · rw [ha] at hee; cases hee
        · exact hnone e he' hee
      · right
        refine ⟨e, List.mem_cons_of_mem _ hm, hne, h25,
          by simp [List.foldl_cons, hstep, heq], hlt, ?_⟩
        intro e' he' hee' h25'
        rcases List.mem_cons.1 he' with rfl | he''
        · rw [ha] at hee'; cases hee'
        · have := hmin e' he'' hee' h25'
          simpa [List.foldl_cons, hstep] using this
    · have ha' : entryEmpty a = false := by simpa using ha
      by_cases hlt : distSqTo a x y < acc.2 ∧ distSqTo a x y ≤ 50 * 50
      · have hstep : lookupStep x y acc a = (a.typ, distSqTo a x y) := by
          unfold lookupStep
          rw [if_neg (by simp [ha']), if_pos hlt]
        rcases ih (a.typ, distSqTo a x y) with ⟨heq, hnone⟩ | ⟨e, hm, hne, h25, heq, hlt', hmin⟩
        · right
          refine ⟨a, List.mem_cons_self a l, ha', hlt.2,
            by simp [List.foldl_cons, hstep, heq], hlt.1, ?_⟩
          intro e' he' hee' h25'
          rcases List.mem_cons.1 he' with rfl | he''
          · simp [List.foldl_cons, hstep, heq]
          · have := hnone e' he'' hee'
            simp only [List.foldl_cons, hstep, heq]
            by_contra hcon
            push_neg at hcon
            exact this ⟨by simpa using hcon, h25'⟩
        · right
          refine ⟨e, List.mem_cons_of_mem _ hm, hne, h25,
            by simp [List.foldl_cons, hstep, heq], lt_trans hlt' hlt.1, ?_⟩
          intro e' he' hee' h25'
          rcases List.mem_cons.1 he' with rfl | he''
          · simp only [List.foldl_cons, hstep, heq]
            have : distSqTo e x y < distSqTo e' x y := hlt'
            omega
          · have := hmin e' he'' hee' h25'
            simpa [List.foldl_cons, hstep] using this
      · have hstep : lookupStep x y acc a = acc := by
          simp only [lookupStep, ha', Bool.false_eq_true, if_false]
          rw [if_neg hlt]
        rcases ih acc with ⟨heq, hnone⟩ | ⟨e, hm, hne, h25, heq, hlt', hmin⟩
        · left
          refine ⟨by simp [List.foldl_cons, hstep, heq], ?_⟩
          intro e' he' hee'
          rcases List.mem_cons.1 he' with rfl | he''
          · exact hlt
          · exact hnone e' he'' hee'
        · right
          refine ⟨e, List.mem_cons_of_mem _ hm, hne, h25,
            by simp [List.foldl_cons, hstep, heq], hlt', ?_⟩
          intro e' he' hee' h25'
          rcases List.mem_cons.1 he' with rfl | he''
          · simp only [List.foldl_cons, hstep, heq]
            push_neg at hlt
            rcases lt_or_le (distSqTo e' x y) acc.2 with hc | hc
            · exact absurd (hlt hc) (by omega)
            · show distSqTo e x y ≤ distSqTo e' x y
              omega
          · have := hmin e' he'' hee' h25'
            simpa [List.foldl_cons, hstep] using this

/-- C9.  `lookup_class` (`GetLastCoinTypeAtLocation` = `getCoinTypeAtLocation`,
whose bodies are identical) returns either 0 with no active entry within the
50px radius, or the class of an active entry within the radius whose distance
is minimal among all active entries within the radius.  The function is a pure
read: in this embedding it takes the table by value and returns only the
class, and the C loop performs no store to `detectedCoins`. -/
theorem C9_lookup_class_nearest (coins : List CoinEntry) (x y : Int) :
    (getCoinTypeAtLocation coins x y = GetLastCoinTypeAtLocation coins x y) ∧
    ((GetLastCoinTypeAtLocation coins x y = 0 ∧
        ∀ e ∈ coins, entryEmpty e = false → 50 * 50 < distSqTo e x y) ∨
      (∃ e ∈ coins, entryEmpty e = false ∧ distSqTo e x y ≤ 50 * 50 ∧
        GetLastCoinTypeAtLocation coins x y = e.typ ∧
        ∀ e' ∈ coins, entryEmpty e' = false → distSqTo e' x y ≤ 50 * 50 →
          distSqTo e x y ≤ distSqTo e' x y)) := by
  refine ⟨rfl, ?_⟩
  rcases lookup_go x y coins (0, INT_MAX) with ⟨heq, hnone⟩ | ⟨e, hm, hne, h25, heq, hlt, hmin⟩
  · left
    refine ⟨by simp [GetLastCoinTypeAtLocation, heq], ?_⟩
    intro e he hee
    by_contra hcon
    push_neg at hcon
    exact hnone e he hee ⟨by simp [INT_MAX]; omega, hcon⟩
  · right
    refine ⟨e, hm, hne, h25, by simp [GetLastCoinTypeAtLocation, heq], ?_⟩
    intro e' he' hee' h25'
    have := hmin e' he' hee' h25'
    rw [heq] at this
    exact this

/-! ### Claim C10: the (0,0) origin sentinel -/

/-- Helper for C10: an addition at the origin leaves the exclusion list
literally unchanged — the first free slot (0,0) is overwritten with (0,0). -/
theorem excludeAdd_origin (l : ExcludeList) : excludeAdd l 0 0 = l := by
  induction l with
  | nil => rfl
  | cons p rest ih =>
    by_cases hp : p.1 = 0 ∧ p.2 = 0
    · simp only [excludeAdd, if_pos hp]
      have : p = (0, 0) := Prod.ext hp.1 hp.2
      rw [this]
    · simp only [excludeAdd, if_neg hp, ih]

/-- Helper for C10: one `record_and_check` call at the origin, in a table with
no active entry within 85px of the origin, reports "new" and leaves the set of
active entries unchanged (the inserted record has coordinates (0,0) and is
itself an empty slot for every scan). -/
theorem trackCoin_origin_step (s : List CoinEntry) (t c f : Int)
    (h : ∀ e ∈ s, entryEmpty e = false → 85 * 85 < distSqTo e 0 0) :
    (trackCoin 0 0 t c f s).2 = 0 ∧
    ((trackCoin 0 0 t c f s).1.filter (fun e => !entryEmpty e) =
      s.filter (fun e => !entryEmpty e)) := by
  have hdel : ∀ e ∈ s, goldDelPred 0 0 e = false := by
    intro e he
    by_cases hee : entryEmpty e
    · simp [goldDelPred, hee]
    · have := h e he (by simpa using hee)
      simp only [goldDelPred, Bool.and_eq_false_iff]
      right
      simpa using by omega
  have hmatch : ∀ e ∈ s, matchPred 0 0 t f e = false := by
    intro e he
    by_cases hee : entryEmpty e
    · simp [matchPred, hee]
    · have hd := h e he (by simpa using hee)
      have hthr : distThreshold t * distThreshold t ≤ 85 * 85 := by
        simp only [distThreshold]
        split <;> decide
      simp only [matchPred, Bool.and_eq_false_iff]
      left
      right
      simpa using by omega
  have hpre : preDelete false 0 0 t s = s := preDelete_eq_self hdel
  have hnom : findFirst (matchPred 0 0 t f) s = none := findFirst_none_of hmatch
  unfold trackCoin coinTrackCore
  rw [hpre]
  cases hemp : findFirst entryEmpty s with
  | none => rw [trackScan_full hnom hemp]; exact ⟨rfl, rfl⟩
  | some j =>
    rw [trackScan_insert hnom hemp]
    refine ⟨rfl, ?_⟩
    have hj := findFirst_some_lt hemp
    have hsat := findFirst_sat zeroEntry hemp
    exact @filter_set_invisible _ (fun e => !entryEmpty e) s j _ zeroEntry hj
      (by simp only [hsat, Bool.not_true]) (by simp [entryEmpty])

/-- C10 counterexample.  The claim concludes that a detection at the raster
origin is "never matched, never reported as already counted, and never
excluded".  In a table holding a counted entry at (3, 4) — 5px from the origin,
within every match radius — `trackCoin(0, 0, ...)` matches that entry and
returns 1: the origin detection IS reported as already counted. -/
theorem C10_origin_counterexample :
    (trackCoin 0 0 2 1 6 [⟨3, 4, 2, 5, 1⟩]).2 = 1 := by decide

/-- C10 amended.  Every scan treats an entry with stored coordinates (0,0) as
a free slot, and an insertion at the origin writes such an entry: in a table
with no ACTIVE entry within 85px of the origin, `record_and_check(0,0,·)`
reports "new", leaves the set of active entries unchanged, every later
`record_and_check` at the origin still reports "new" (never "already
counted"), `lookup_class` at the origin finds nothing, and an exclusion add at
(0,0) leaves the exclusion list unchanged.  (A detection at the origin can
still be matched, reported counted, or excluded through an entry stored NEAR
but not at the origin, as the counterexample shows.) -/
theorem C10_origin_sentinel (s : List CoinEntry) (t c f : Int)
    (h : ∀ e ∈ s, entryEmpty e = false → 85 * 85 < distSqTo e 0 0) :
    (trackCoin 0 0 t c f s).2 = 0 ∧
    ((trackCoin 0 0 t c f s).1.filter (fun e => !entryEmpty e) =
      s.filter (fun e => !entryEmpty e)) ∧
    (∀ t' c' f' : Int, (trackCoin 0 0 t' c' f' (trackCoin 0 0 t c f s).1).2 = 0) ∧
    GetLastCoinTypeAtLocation (trackCoin 0 0 t c f s).1 0 0 = 0 ∧
    (∀ l : ExcludeList, excludeAdd l 0 0 = l) := by
  obtain ⟨hret, hfil⟩ := trackCoin_origin_step s t c f h
  have h' : ∀ e ∈ (trackCoin 0 0 t c f s).1, entryEmpty e = false →
      85 * 85 < distSqTo e 0 0 := by
    intro e he hee
    have : e ∈ (trackCoin 0 0 t c f s).1.filter (fun e => !entryEmpty e) := by
      rw [List.mem_filter]
      exact ⟨he, by simp [hee]⟩
    rw [hfil, List.mem_filter] at this
    exact h e this.1 hee
  refine ⟨hret, hfil, ?_, ?_, excludeAdd_origin⟩
  · intro t' c' f'
    exact (trackCoin_origin_step _ t' c' f' h').1
  · rcases lookup_go 0 0 (trackCoin 0 0 t c f s).1 (0, INT_MAX) with
      ⟨heq, _⟩ | ⟨e, hm, hne, h25, _, _, _⟩
    · simp [GetLastCoinTypeAtLocation, heq]
    · exact absurd (h' e hm hne) (by omega)

/-- Witness for C10 in a table with one far-away active entry. -/
theorem C10_origin_sentinel_witness :
    (∀ e ∈ [CoinEntry.mk 200 200 5 10 1], entryEmpty e = false →
      85 * 85 < distSqTo e 0 0) ∧
    (trackCoin 0 0 2 1 6 [CoinEntry.mk 200 200 5 10 1]).2 = 0 :=
  ⟨by decide, (C10_origin_sentinel [CoinEntry.mk 200 200 5 10 1] 2 1 6 (by decide)).1⟩

/-! ### Claim C2: correction conservation -/

/-- C2.  Correction conservation: in a tracker state whose only active entry
within 85px of the coin is the provisional gold entry found by
`correctGoldCoins`, a `correctGoldCoins(x, y, counters)` call followed by the
euro recording-and-counting step for the superseding euro class `t` (7 or 8)
at the same location nets exactly +1 on the euro counter; the gold counter is
decremented by exactly 1 when positive and left unchanged when it was zero
(never incremented); every other counter is unchanged; and no provisional
gold entry near the location survives in the tracked table. -/
theorem C2_correction_conservation
    (s : List CoinEntry) (counters : List Int) (x y f t : Int) (j : Nat)
    (hfind : findFirst (correctPred x y) s = some j)
    (hiso : ∀ k : Nat, k < s.length → k ≠ j →
      entryEmpty (s.getD k zeroEntry) = false →
      85 * 85 < distSqTo (s.getD k zeroEntry) x y)
    (ht : t = 7 ∨ t = 8) (hlen : counters.length = 8) :
    (((recordAndCount x y t f (t - 1).toNat
        (correctGoldCoins x y s counters).1 (correctGoldCoins x y s counters).2).2).getD
          (t - 1).toNat 0 = counters.getD (t - 1).toNat 0 + 1) ∧
    (0 < counters.getD ((s.getD j zeroEntry).typ - 1).toNat 0 →
      ((recordAndCount x y t f (t - 1).toNat
        (correctGoldCoins x y s counters).1 (correctGoldCoins x y s counters).2).2).getD
          ((s.getD j zeroEntry).typ - 1).toNat 0 =
        counters.getD ((s.getD j zeroEntry).typ - 1).toNat 0 - 1) ∧
    (counters.getD ((s.getD j zeroEntry).typ - 1).toNat 0 ≤ 0 →
      ((recordAndCount x y t f (t - 1).toNat
        (correctGoldCoins x y s counters).1 (correctGoldCoins x y s counters).2).2).getD
          ((s.getD j zeroEntry).typ - 1).toNat 0 =
        counters.getD ((s.getD j zeroEntry).typ - 1).toNat 0) ∧
    (∀ m : Nat, m < 8 → m ≠ (t - 1).toNat → m ≠ ((s.getD j zeroEntry).typ - 1).toNat →
      ((recordAndCount x y t f (t - 1).toNat
        (correctGoldCoins x y s counters).1 (correctGoldCoins x y s counters).2).2).getD
          m 0 = counters.getD m 0) ∧
    (∀ k : Nat,
      k < ((recordAndCount x y t f (t - 1).toNat
        (correctGoldCoins x y s counters).1 (correctGoldCoins x y s counters).2).1).length →
      correctPred x y
        (((recordAndCount x y t f (t - 1).toNat
          (correctGoldCoins x y s counters).1 (correctGoldCoins x y s counters).2).1).getD
            k zeroEntry) = false) := by
  have hj : j < s.length := findFirst_some_lt hfind
  have hsat := findFirst_sat zeroEntry hfind
  have hgold : 4 ≤ (s.getD j zeroEntry).typ ∧ (s.getD j zeroEntry).typ ≤ 6 := by
    simp only [correctPred, isGoldType, Bool.and_eq_true, decide_eq_true_eq] at hsat
    exact hsat.2
  set g : Int := (s.getD j zeroEntry).typ with hg
  set gi : Nat := (g - 1).toNat with hgidef
  set ti : Nat := (t - 1).toNat with htidef
  have hgib : 3 ≤ gi ∧ gi ≤ 5 := by omega
  have htib : 6 ≤ ti ∧ ti ≤ 7 := by omega
  have htge : t ≥ 7 := by omega
  have hglen : gi < counters.length := by omega
  have hne : ti ≠ gi := by omega
  -- step 1: correctGoldCoins deletes the entry and adjusts the gold counter
  have hcg : correctGoldCoins x y s counters =
      (s.set j zeroEntry,
        if counters.getD gi 0 > 0 then counters.set gi (counters.getD gi 0 - 1)
        else counters) := by
    simp only [correctGoldCoins, hfind, ← hg, ← hgidef]
  set s1 : List CoinEntry := s.set j zeroEntry with hs1
  set c1 : List Int :=
      (if counters.getD gi 0 > 0 then counters.set gi (counters.getD gi 0 - 1)
       else counters) with hc1
  have hc1len : c1.length = counters.length := by
    rw [hc1]
    split
    · simp
    · rfl
  have hs1len : s1.length = s.length := by simp [hs1]
  have hs1j : s1.getD j zeroEntry = zeroEntry := getD_set_self s j zeroEntry zeroEntry hj
  have hs1k : ∀ k : Nat, k ≠ j → s1.getD k zeroEntry = s.getD k zeroEntry := by
    intro k hk
    exact getD_set_ne s j k zeroEntry zeroEntry (fun h => hk h.symm)
  -- every element of s1 is untrackable from (x, y): deleted, empty, or far away
  have haux : ∀ a ∈ s1, goldDelPred x y a = false ∧ matchPred x y t f a = false := by
    intro a ha
    obtain ⟨i, hi, hgd⟩ := mem_getD zeroEntry ha
    refine hgd ▸ untrackable_entry ?_
    by_cases hij : i = j
    · subst hij
      rw [hs1j]
      intro hc
      simp [entryEmpty, zeroEntry] at hc
    · rw [hs1k i hij]
      intro hee
      exact hiso i (by omega) hij hee
  -- step 2: the euro record finds no match, inserts into a free slot, returns 0
  have hdel : deleteAllGold x y s1 = s1 :=
    map_if_id_of_mem s1 fun a ha => (haux a ha).1
  have hnom : findFirst (matchPred x y t f) s1 = none :=
    findFirst_none_of fun a ha => (haux a ha).2
  have hifree : (findFirst entryEmpty s1).isSome = true :=
    findFirst_isSome zeroEntry j (by omega) (by rw [hs1j]; rfl)
  obtain ⟨j0, hj0⟩ := Option.isSome_iff_exists.1 hifree
  have hj0lt : j0 < s1.length := findFirst_some_lt hj0
  have hrec : IsCoinAlreadyDetected x y t 1 f s1 =
      (s1.set j0 ⟨x, y, t, f, 1⟩, 0) := by
    have hpre : preDelete true x y t s1 = s1 :=
      preDelete_eq_self fun a ha => (haux a ha).1
    unfold IsCoinAlreadyDetected coinTrackCore
    rw [hpre, trackScan_insert hnom hj0]
    norm_num
  have hrec1 : (IsCoinAlreadyDetected x y t 1 f s1).1 = s1.set j0 ⟨x, y, t, f, 1⟩ := by
    rw [hrec]
  have hrec2 : (IsCoinAlreadyDetected x y t 1 f s1).2 = 0 := by rw [hrec]
  refine ⟨?_, ?_, ?_, ?_, ?_⟩
  · simp only [recordAndCount, hcg, hrec, if_true]
    rw [getD_set_self _ _ _ _ (show ti < c1.length by omega)]
    congr 1
    rw [hc1]
    split
    · exact getD_set_ne counters gi ti _ 0 (fun h => hne h.symm)
    · rfl
  · intro hpos
    simp only [recordAndCount, hcg, hrec, if_true]
    rw [getD_set_ne _ ti gi _ 0 hne, hc1, if_pos hpos,
      getD_set_self counters gi _ 0 hglen]
  · intro hzero
    simp only [recordAndCount, hcg, hrec, if_true]
    rw [getD_set_ne _ ti gi _ 0 hne, hc1, if_neg (by omega)]
  · intro m hm hmt hmg
    simp only [recordAndCount, hcg, hrec, if_true]
    rw [getD_set_ne _ ti m _ 0 (fun h => hmt h.symm), hc1]
    split
    · exact getD_set_ne counters gi m _ 0 (fun h => hmg h.symm)
    · rfl
  · intro k hk
    simp only [recordAndCount, hcg, hrec1, List.length_set] at hk ⊢
    by_cases hkj0 : k = j0
    · subst hkj0
      rw [getD_set_self _ _ _ _ hj0lt]
      exact correctPred_euro_false htge
    · rw [getD_set_ne _ j0 k _ zeroEntry (fun h => hkj0 h.symm)]
      by_cases hkj : k = j
      · subst hkj
        rw [hs1j]
        exact correctPred_empty_false rfl
      · rw [hs1k k hkj]
        by_cases hee : entryEmpty (s.getD k zeroEntry)
        · exact correctPred_empty_false hee
        · exact correctPred_far_false (hiso k (by omega) hkj (by simpa using hee))

/-- Witness for C2 at the spec scenario: a counted gold (50c, class 5) entry
near (205, 202), gold counter at 1, then a 2-euro record at the same spot. -/
theorem C2_correction_conservation_witness :
    ((recordAndCount 205 202 8 12 (8 - 1 : Int).toNat
        (correctGoldCoins 205 202 [CoinEntry.mk 205 200 5 10 1, zeroEntry]
          [0, 0, 0, 0, 1, 0, 0, 0]).1
        (correctGoldCoins 205 202 [CoinEntry.mk 205 200 5 10 1, zeroEntry]
          [0, 0, 0, 0, 1, 0, 0, 0]).2).2).getD (8 - 1 : Int).toNat 0 =
      ([0, 0, 0, 0, 1, 0, 0, 0] : List Int).getD (8 - 1 : Int).toNat 0 + 1 :=
  (C2_correction_conservation [CoinEntry.mk 205 200 5 10 1, zeroEntry]
    [0, 0, 0, 0, 1, 0, 0, 0] 205 202 12 8 0 (by decide)
    (by decide) (Or.inr rfl) (by decide)).1

/-! ### Claim C1: idempotent counting -/

theorem Rejected_mono {x y t f f' : Int} {e : CoinEntry}
    (h : Rejected x y t f e) (hf : f ≤ f') : Rejected x y t f' e := by
  rcases h with h | h | h
  · exact Or.inl h
  · exact Or.inr (Or.inl h)
  · exact Or.inr (Or.inr ⟨by omega, by omega⟩)

theorem notMatch_of_Rejected {x y t f : Int} {e : CoinEntry}
    (h : Rejected x y t f e) : matchPred x y t f e = false := by
  rcases h with h | h | h
  · simp [matchPred, h]
  · simp only [matchPred, Bool.and_eq_false_iff]
    left
    right
    have : ¬ (distSqTo e x y ≤ distThreshold t * distThreshold t) := by omega
    simpa using this
  · simp only [matchPred, Bool.and_eq_false_iff]
    right
    simp only [timeWindowOk, Bool.or_eq_false_iff, decide_eq_false_iff_not]
    constructor <;> omega

theorem Rejected_of_notMatch {x y t f : Int} {e : CoinEntry}
    (h : matchPred x y t f e = false) : Rejected x y t f e := by
  simp only [matchPred, Bool.and_eq_false_iff] at h
  rcases h with (h | h) | h
  · left
    simpa using h
  · right
    left
    simp only [decide_eq_false_iff_not] at h
    omega
  · right
    right
    simp only [timeWindowOk, Bool.or_eq_false_iff, decide_eq_false_iff_not] at h
    omega

theorem Rejected_zeroEntry {x y t f : Int} : Rejected x y t f zeroEntry :=
  Or.inl rfl

theorem isGoldType_false_of_euro {t : Int} (h : t ≥ 7) : isGoldType t = false := by
  simp only [isGoldType, Bool.and_eq_false_iff, decide_eq_false_iff_not]
  right
  omega

theorem upgradeTyp_not_gold {t : Int} {e : CoinEntry} (h : t ≥ 7) :
    isGoldType (upgradeTyp t e) = false := by
  unfold upgradeTyp
  split
  · exact isGoldType_false_of_euro h
  · rename_i hc
    push_neg at hc
    by_contra hg
    exact absurd (hc h) (by simpa using hg)

/-- The gold-deletion phase leaves every slot unchanged or empty, keeps the
length, and never touches a slot whose class is not provisional gold. -/
theorem preDelete_facts (da : Bool) {x y t : Int} {s : List CoinEntry} {i : Nat}
    (hnotgold : t ≥ 7 → isGoldType ((s.getD i zeroEntry).typ) = false) :
    (preDelete da x y t s).length = s.length ∧
    (preDelete da x y t s).getD i zeroEntry = s.getD i zeroEntry ∧
    (∀ j : Nat, (preDelete da x y t s).getD j zeroEntry = s.getD j zeroEntry ∨
      (preDelete da x y t s).getD j zeroEntry = zeroEntry) := by
  unfold preDelete
  by_cases h7 : t ≥ 7
  · rw [if_pos h7]
    have hng := hnotgold h7
    cases da
    · simp only [Bool.false_eq_true, if_false]
      unfold deleteFirstGold
      cases hfd : findFirst (goldDelPred x y) s with
      | none => exact ⟨rfl, rfl, fun j => Or.inl rfl⟩
      | some d =>
        have hd := findFirst_some_lt hfd
        have hsat := findFirst_sat zeroEntry hfd
        have hdi : d ≠ i := by
          intro hdi
          subst hdi
          simp only [goldDelPred, Bool.and_eq_true] at hsat
          exact absurd hsat.1.2 (by simp only [hng]; simp)
        refine ⟨List.length_set .., getD_set_ne s d i zeroEntry zeroEntry hdi, ?_⟩
        intro j
        by_cases hjd : j = d
        · subst hjd
          exact Or.inr (getD_set_self s j zeroEntry zeroEntry hd)
        · exact Or.inl (getD_set_ne s d j zeroEntry zeroEntry (fun h => hjd h.symm))
    · simp only [if_true]
      unfold deleteAllGold
      have hfix : (fun e => if goldDelPred x y e then zeroEntry else e) zeroEntry
          = zeroEntry := by
        simp [goldDelPred, entryEmpty, zeroEntry]
      have hget : ∀ j : Nat,
          ((s.map (fun e => if goldDelPred x y e then zeroEntry else e)).getD j zeroEntry)
            = (fun e => if goldDelPred x y e then zeroEntry else e) (s.getD j zeroEntry) :=
        fun j => @getD_map_fix CoinEntry
          (fun e => if goldDelPred x y e then zeroEntry else e) zeroEntry hfix s j
      have hng' : goldDelPred x y (s.getD i zeroEntry) = false := by
        simp only [goldDelPred, Bool.and_eq_false_iff]
        left
        right
        exact hng
      refine ⟨List.length_map .., ?_, ?_⟩
      · rw [hget i]
        simp only [hng', Bool.false_eq_true, if_false]
      · intro j
        rw [hget j]
        by_cases hp : goldDelPred x y (s.getD j zeroEntry) = true
        · right
          simp only [hp, if_true]
        · left
          simp only [Bool.not_eq_true] at hp
          simp only [hp, Bool.false_eq_true, if_false]
  · rw [if_neg h7]
    exact ⟨rfl, rfl, fun j => Or.inl rfl⟩

/-- One further `record_and_check` call at the object's position, within the
memory window of the invariant's timestamp, preserves the invariant and keeps
the total count of "new with countIt" reports at most 1. -/
theorem TrackInv_step (da : Bool) {x y t f f' c : Int} {s : List CoinEntry} {k : Nat}
    (hxy : ¬(x = 0 ∧ y = 0))
    (hinv : TrackInv x y t f s k) (h1 : f ≤ f') (h2 : f' - f < frameMemory t) :
    TrackInv x y t f' (coinTrackCore da x y t c f' s).1
      (k + (if (coinTrackCore da x y t c f' s).2 = 0 ∧ c ≠ 0 then 1 else 0)) := by
  obtain ⟨i, hi, hx, hy, hls, hgold, hcount, hrej⟩ := hinv
  obtain ⟨hlen1, hkeep, hslots⟩ := preDelete_facts da (x := x) (y := y) (s := s) (i := i) hgold
  set s1 := preDelete da x y t s with hs1def
  have hee : entryEmpty (s.getD i zeroEntry) = false := by
    rcases not_and_or.1 hxy with h | h
    · simp only [entryEmpty, hx, hy, Bool.and_eq_false_iff]
      left
      simpa using h
    · simp only [entryEmpty, hx, hy, Bool.and_eq_false_iff]
      right
      simpa using h
  have hm : matchPred x y t f' (s1.getD i zeroEntry) = true := by
    rw [hkeep]
    simp only [matchPred, Bool.and_eq_true]
    refine ⟨⟨by simp only [hee, Bool.not_false], ?_⟩, ?_⟩
    · simp only [distSqTo, hx, hy, decide_eq_true_eq]
      have : (x - x) * (x - x) + (y - y) * (y - y) = 0 := by ring
      rw [this]
      exact mul_self_nonneg _
    · simp only [timeWindowOk, hls, Bool.or_eq_true, decide_eq_true_eq]
      omega
  have hmin : ∀ j, j < i → matchPred x y t f' (s1.getD j zeroEntry) = false := by
    intro j hj
    rcases hslots j with heq | heq
    · rw [heq]
      exact notMatch_of_Rejected (Rejected_mono (hrej j hj) h1)
    · rw [heq]
      exact notMatch_of_Rejected Rejected_zeroEntry
  have hfound : findFirst (matchPred x y t f') s1 = some i :=
    findFirst_eq_some zeroEntry (by omega) hm hmin
  have hcore : coinTrackCore da x y t c f' s = trackScan x y t c f' s1 := rfl
  have hrej' : ∀ j, j < i → Rejected x y t f' ((s1.set i
      { x := x, y := y, typ := upgradeTyp t (s1.getD i zeroEntry),
        lastSeen := f', counted := 1 }).getD j zeroEntry) := by
    intro j hj
    rw [getD_set_ne s1 i j _ zeroEntry (by omega)]
    exact Rejected_of_notMatch (hmin j hj)
  have hrej'' : ∀ j, j < i → Rejected x y t f' ((s1.set i
      { x := x, y := y, typ := upgradeTyp t (s1.getD i zeroEntry),
        lastSeen := f', counted := (s1.getD i zeroEntry).counted }).getD j zeroEntry) := by
    intro j hj
    rw [getD_set_ne s1 i j _ zeroEntry (by omega)]
    exact Rejected_of_notMatch (hmin j hj)
  have hupg : t ≥ 7 → isGoldType (upgradeTyp t (s1.getD i zeroEntry)) = false :=
    fun h7 => upgradeTyp_not_gold h7
  have hilen1 : i < s1.length := by omega
  by_cases hcase : c ≠ 0 ∧ (s1.getD i zeroEntry).counted = 0
  · rw [hcore, trackScan_mark hfound hcase.1 hcase.2]
    have hcnt0 : (s.getD i zeroEntry).counted = 0 := by rw [← hkeep]; exact hcase.2
    rw [hcnt0] at hcount
    norm_num at hcount
    refine ⟨i, ?_, ?_, ?_, ?_, ?_, ?_, ?_⟩
    · simp only [List.length_set]
      omega
    · rw [getD_set_self s1 i _ zeroEntry hilen1]
    · rw [getD_set_self s1 i _ zeroEntry hilen1]
    · rw [getD_set_self s1 i _ zeroEntry hilen1]
    · rw [getD_set_self s1 i _ zeroEntry hilen1]
      exact hupg
    · rw [getD_set_self s1 i _ zeroEntry hilen1]
      have hc' : c ≠ 0 := hcase.1
      dsimp only
      split_ifs <;> omega
    · intro j hj
      exact hrej' j hj
  · rw [hcore, trackScan_found_keep hfound hcase]
    have hkmatch : (if (s1.getD i zeroEntry).counted = 0 ∧ c ≠ 0 then 1 else 0) = (0 : Nat) := by
      rw [if_neg]
      intro hc
      exact hcase ⟨hc.2, hc.1⟩
    rw [hkmatch]
    refine ⟨i, ?_, ?_, ?_, ?_, ?_, ?_, ?_⟩
    · simp only [List.length_set]
      omega
    · rw [getD_set_self s1 i _ zeroEntry hilen1]
    · rw [getD_set_self s1 i _ zeroEntry hilen1]
    · rw [getD_set_self s1 i _ zeroEntry hilen1]
    · rw [getD_set_self s1 i _ zeroEntry hilen1]
      exact hupg
    · rw [getD_set_self s1 i _ zeroEntry hilen1]
      have : (s1.getD i zeroEntry).counted = (s.getD i zeroEntry).counted := by
        rw [hkeep]
      dsimp only
      simp only [this]
      split_ifs at hcount ⊢ <;> omega
    · intro j hj
      exact hrej'' j hj

/-- The first call of a run establishes the invariant, provided the call is
not silently dropped (it either matches an entry or finds a free slot). -/
theorem TrackInv_init (da : Bool) {x y t f c : Int} {s : List CoinEntry}
    (hdrop : (findFirst (matchPred x y t f) (preDelete da x y t s)).isSome = true ∨
             (findFirst entryEmpty (preDelete da x y t s)).isSome = true) :
    TrackInv x y t f (coinTrackCore da x y t c f s).1
      (if (coinTrackCore da x y t c f s).2 = 0 ∧ c ≠ 0 then 1 else 0) := by
  set s1 := preDelete da x y t s with hs1def
  have hcore : coinTrackCore da x y t c f s = trackScan x y t c f s1 := rfl
  cases hfound : findFirst (matchPred x y t f) s1 with
  | some i =>
    have hilen : i < s1.length := findFirst_some_lt hfound
    have hupg : t ≥ 7 → isGoldType (upgradeTyp t (s1.getD i zeroEntry)) = false :=
      fun h7 => upgradeTyp_not_gold h7
    have hmin : ∀ j, j < i → Rejected x y t f (s1.getD j zeroEntry) :=
      fun j hj => Rejected_of_notMatch (findFirst_min zeroEntry hfound j hj)
    by_cases hcase : c ≠ 0 ∧ (s1.getD i zeroEntry).counted = 0
    · rw [hcore, trackScan_mark hfound hcase.1  hcase.2]
      refine ⟨i, by simp only [List.length_set]; omega, ?_, ?_, ?_, ?_, ?_, ?_⟩
      · rw [getD_set_self s1 i _ zeroEntry hilen]
      · rw [getD_set_self s1 i _ zeroEntry hilen]
      · rw [getD_set_self s1 i _ zeroEntry hilen]
      · rw [getD_set_self s1 i _ zeroEntry hilen]
        exact hupg
      · rw [getD_set_self s1 i _ zeroEntry hilen]
        have hc' : c ≠ 0 := hcase.1
        dsimp only
        split_ifs <;> omega
      · intro j hj
        rw [getD_set_ne s1 i j _ zeroEntry (by omega)]
        exact hmin j hj
    · rw [hcore, trackScan_found_keep hfound hcase]
      have hkmatch : (if (s1.getD i zeroEntry).counted = 0 ∧ c ≠ 0 then 1 else 0)
          = (0 : Nat) := by
        rw [if_neg]
        intro hc
        exact hcase ⟨hc.2, hc.1⟩
      rw [hkmatch]
      refine ⟨i, by simp only [List.length_set]; omega, ?_, ?_, ?_, ?_, ?_, ?_⟩
      · rw [getD_set_self s1 i _ zeroEntry hilen]
      · rw [getD_set_self s1 i _ zeroEntry hilen]
      · rw [getD_set_self s1 i _ zeroEntry hilen]
      · rw [getD_set_self s1 i _ zeroEntry hilen]
        exact hupg
      · rw [getD_set_self s1 i _ zeroEntry hilen]
        dsimp only
        split_ifs <;> omega
      · intro j hj
        rw [getD_set_ne s1 i j _ zeroEntry (by omega)]
        exact hmin j hj
  | none =>
    cases hemp : findFirst entryEmpty s1 with
    | some j0 =>
      have hjlen : j0 < s1.length := findFirst_some_lt hemp
      rw [hcore, trackScan_insert hfound hemp]
      have hall : ∀ j, j < s1.length → matchPred x y t f (s1.getD j zeroEntry) = false :=
        findFirst_eq_none zeroEntry hfound
      refine ⟨j0, by simp only [List.length_set]; omega, ?_, ?_, ?_, ?_, ?_, ?_⟩
      · rw [getD_set_self s1 j0 _ zeroEntry hjlen]
      · rw [getD_set_self s1 j0 _ zeroEntry hjlen]
      · rw [getD_set_self s1 j0 _ zeroEntry hjlen]
      · rw [getD_set_self s1 j0 _ zeroEntry hjlen]
        intro h7
        exact isGoldType_false_of_euro h7
      · rw [getD_set_self s1 j0 _ zeroEntry hjlen]
        dsimp only
        split_ifs <;> omega
      · intro j hj
        rw [getD_set_ne s1 j0 j _ zeroEntry (by omega)]
        exact Rejected_of_notMatch (hall j (by omega))
    | none =>
      rw [hfound] at hdrop
      rw [hemp] at hdrop
      simp at hdrop

/-- After the invariant holds, every further in-window call reports
"already counted" or does not count, so the total stays at most 1. -/
theorem trackRun_le (da : Bool) {x y t : Int} (hxy : ¬(x = 0 ∧ y = 0)) :
    ∀ (calls : List (Int × Int)) {f : Int} {s : List CoinEntry} {k : Nat},
    TrackInv x y t f s k → framesOk t f calls = true →
    k + (trackRun da x y t s calls).2 ≤ 1 := by
  intro calls
  induction calls with
  | nil =>
    intro f s k hinv _
    obtain ⟨i, _, _, _, _, _, hcount, _⟩ := hinv
    simp only [trackRun]
    split at hcount <;> omega
  | cons hd rest ih =>
    intro f s k hinv hframes
    obtain ⟨g, c⟩ := hd
    simp only [framesOk, Bool.and_eq_true, decide_eq_true_eq] at hframes
    obtain ⟨⟨hle, hgap⟩, hrest⟩ := hframes
    have hstep := TrackInv_step da (c := c) hxy hinv hle hgap
    have := ih hstep hrest
    simp only [trackRun]
    omega

/-- C7 counterexample.  The claim says the validation failure is signalled
"distinctly from a valid zero-regions-found result".  It is not: a rejected
3-channel input and a valid all-background 4x4 input produce the same
observable signal — a NULL blob pointer with `*nlabels = 0` (callers
initialise `nlabels` to 0, as in processFrame). -/
theorem C7_validation_counterexample :
    ((blobLabel ⟨List.replicate 48 0, 4, 4, 3, 255, 12⟩
        ⟨List.replicate 48 0, 4, 4, 3, 255, 12⟩ 0).1,
     (blobLabel ⟨List.replicate 48 0, 4, 4, 3, 255, 12⟩
        ⟨List.replicate 48 0, 4, 4, 3, 255, 12⟩ 0).2.2) =
    ((blobLabel ⟨List.replicate 16 0, 4, 4, 1, 255, 4⟩
        ⟨List.replicate 16 0, 4, 4, 1, 255, 4⟩ 0).1,
     (blobLabel ⟨List.replicate 16 0, 4, 4, 1, 255, 4⟩
        ⟨List.replicate 16 0, 4, 4, 1, 255, 4⟩ 0).2.2) := by
  decide

/-- C7 amended.  `blobLabel` rejects a zero-size or null-buffered source,
mismatched src/dst dimensions or channel counts, and non-single-channel
input, detecting these synchronously before any mutation of the destination
raster: it returns NULL with both the destination image and `*nlabels`
untouched.  The same NULL, however, is also returned (with `*nlabels` set
to 0) for a valid input with zero regions, so the failure value itself does
not distinguish the two cases. -/
theorem C7_input_validation (src dst : IVC) (nlabels : Int)
    (h : src.width = 0 ∨ src.height = 0 ∨ src.data = [] ∨
      src.width ≠ dst.width ∨ src.height ≠ dst.height ∨ src.channels ≠ dst.channels ∨
      src.channels ≠ 1) :
    blobLabel src dst nlabels = (none, dst, nlabels) := by
  by_cases h1 : src.width = 0 ∨ src.height = 0 ∨ src.data = []
  · unfold blobLabel
    rw [if_pos h1]
  · by_cases h2 : src.width ≠ dst.width ∨ src.height ≠ dst.height ∨
        src.channels ≠ dst.channels
    · unfold blobLabel
      rw [if_neg h1, if_pos h2]
    · have h3 : src.channels ≠ 1 := by tauto
      unfold blobLabel
      rw [if_neg h1, if_neg h2, if_pos h3]

/-- Witness for C7 at a concrete mismatched-dimensions call. -/
theorem C7_input_validation_witness :
    blobLabel ⟨List.replicate 16 0, 4, 4, 1, 255, 4⟩
      ⟨List.replicate 9 0, 3, 3, 1, 255, 3⟩ 7 =
    (none, ⟨List.replicate 9 0, 3, 3, 1, 255, 3⟩, 7) :=
  C7_input_validation _ _ 7 (by decide)

/-! ### Claim C6: perimeter bound -/

theorem blobInfo_fold_counts (data : List Nat) (bpl lab : Nat) :
    ∀ (l : List (Nat × Nat)) (acc : BlobAcc),
      (l.foldl (blobInfoStep data bpl lab) acc).area =
        acc.area + l.countP (fun c => data.getD (c.2 * bpl + c.1) 0 == lab) ∧
      (l.foldl (blobInfoStep data bpl lab) acc).perimeter =
        acc.perimeter + l.countP (fun c =>
          (data.getD (c.2 * bpl + c.1) 0 == lab) &&
          isBoundaryAt data bpl lab (c.2 * bpl + c.1)) := by
  intro l
  induction l with
  | nil => intro acc; simp
  | cons c l ih =>
    intro acc
    by_cases hm : data.getD (c.2 * bpl + c.1) 0 = lab
    · have hstep : blobInfoStep data bpl lab acc c =
          { area := acc.area + 1,
            perimeter := acc.perimeter +
              (if isBoundaryAt data bpl lab (c.2 * bpl + c.1) then 1 else 0),
            sumx := acc.sumx + c.1, sumy := acc.sumy + c.2,
            xmin := min acc.xmin c.1, ymin := min acc.ymin c.2,
            xmax := max acc.xmax c.1, ymax := max acc.ymax c.2 } := by
        unfold blobInfoStep
        rw [if_pos hm]
      obtain ⟨iha, ihp⟩ := ih (blobInfoStep data bpl lab acc c)
      constructor
      · rw [List.foldl_cons, iha, hstep]
        simp only [List.countP_cons]
        have : (data.getD (c.2 * bpl + c.1) 0 == lab) = true := by simpa using hm
        rw [this]
        simp only [if_true]
        omega
      · rw [List.foldl_cons, ihp, hstep]
        simp only [List.countP_cons]
        have hmb : (data.getD (c.2 * bpl + c.1) 0 == lab) = true := by simpa using hm
        rw [hmb]
        by_cases hb : isBoundaryAt data bpl lab (c.2 * bpl + c.1)
        · simp only [hb, Bool.true_and, if_true]
          omega
        · simp only [Bool.not_eq_true] at hb
          simp only [hb, Bool.true_and, Bool.false_eq_true, if_false]
          omega
    · have hstep : blobInfoStep data bpl lab acc c = acc := by
        unfold blobInfoStep
        rw [if_neg hm]
      obtain ⟨iha, ihp⟩ := ih (blobInfoStep data bpl lab acc c)
      have hmb : (data.getD (c.2 * bpl + c.1) 0 == lab) = false := by simpa using hm
      constructor
      · rw [List.foldl_cons, iha, hstep]
        simp only [List.countP_cons, hmb, Bool.false_eq_true, if_false]
        omega
      · rw [List.foldl_cons, ihp, hstep]
        simp only [List.countP_cons, hmb, Bool.false_and, Bool.false_eq_true, if_false]
        omega

theorem countP_imp_le {p q : α → Bool} :
    ∀ (l : List α), (∀ a ∈ l, p a = true → q a = true) → l.countP p ≤ l.countP q := by
  intro l
  induction l with
  | nil => intro _; simp
  | cons a l ih =>
    intro h
    have hl := ih fun b hb => h b (by simp [hb])
    by_cases hp : p a
    · have hq := h a (by simp) hp
      simp only [List.countP_cons, hp, hq, eq_self_iff_true, if_true]
      omega
    · simp only [Bool.not_eq_true] at hp
      simp only [List.countP_cons, hp, Bool.false_eq_true, if_false]
      split <;> omega

theorem countP_imp_eq_iff {p q : α → Bool} :
    ∀ (l : List α), (∀ a ∈ l, p a = true → q a = true) →
      (l.countP p = l.countP q ↔ ∀ a ∈ l, q a = true → p a = true) := by
  intro l
  induction l with
  | nil => intro _; simp
  | cons a l ih =>
    intro h
    have hmono := countP_imp_le l fun b hb => h b (by simp [hb])
    have ihl := ih fun b hb => h b (by simp [hb])
    by_cases hp : p a
    · have hq := h a (by simp) hp
      simp only [List.countP_cons, hp, hq, eq_self_iff_true, if_true]
      constructor
      · intro heq
        intro b hb
        rcases List.mem_cons.1 hb with rfl | hb'
        · intro _; exact hp
        · exact (ihl.1 (by omega)) b hb'
      · intro hall
        have := ihl.2 fun b hb hq => hall b (by simp [hb]) hq
        omega
    · simp only [Bool.not_eq_true] at hp
      by_cases hq : q a
      · simp only [List.countP_cons, hp, hq, Bool.false_eq_true, if_false,
          eq_self_iff_true, if_true]
        constructor
        · intro heq
          omega
        · intro hall
          exact absurd (hall a (by simp) hq) (by simp [hp])
      · simp only [Bool.not_eq_true] at hq
        simp only [List.countP_cons, hp, hq, Bool.false_eq_true, if_false]
        constructor
        · intro heq b hb hqb
          rcases List.mem_cons.1 hb with rfl | hb'
          · exact absurd hqb (by simp [hq])
          · exact (ihl.1 heq) b hb' hqb
        · intro hall
          exact ihl.2 fun b hb hqb => hall b (by simp [hb]) hqb

/-- C6 counterexample.  The claim says perimeter equals area ONLY for
single-pixel regions: a 2-pixel horizontal domino (label 9 in a 4x4 raster)
has perimeter = area = 2 with area not 1 — both pixels touch the background
above, below and sideways. -/
theorem C6_perimeter_counterexample :
    (blobInfoOne ⟨[0,0,0,0, 0,9,9,0, 0,0,0,0, 0,0,0,0], 4, 4, 1, 255, 4⟩ 9).perimeter =
      (blobInfoOne ⟨[0,0,0,0, 0,9,9,0, 0,0,0,0, 0,0,0,0], 4, 4, 1, 255, 4⟩ 9).area ∧
    (blobInfoOne ⟨[0,0,0,0, 0,9,9,0, 0,0,0,0, 0,0,0,0], 4, 4, 1, 255, 4⟩ 9).area ≠ 1 := by
  decide

/-- C6 amended.  For every region record produced by `blobInfo`:
`0 ≤ perimeter ≤ area` (a pixel counts toward the perimeter only if it also
counts toward the area), and perimeter = area exactly when EVERY member pixel
has a 4-neighbour carrying a different label — which holds for single-pixel
regions surrounded by other labels, but also for larger all-boundary regions
such as a 2-pixel domino. -/
theorem C6_perimeter_bound (src : IVC) (lab : Nat) :
    0 ≤ (blobInfoOne src lab).perimeter ∧
    (blobInfoOne src lab).perimeter ≤ (blobInfoOne src lab).area ∧
    ((blobInfoOne src lab).perimeter = (blobInfoOne src lab).area ↔
      ∀ c ∈ interiorCoords src.width src.height,
        src.data.getD (c.2 * src.bytesperline + c.1) 0 = lab →
        isBoundaryAt src.data src.bytesperline lab (c.2 * src.bytesperline + c.1) = true) := by
  obtain ⟨ha, hp⟩ := blobInfo_fold_counts src.data src.bytesperline lab
    (interiorCoords src.width src.height)
    ⟨0, 0, 0, 0, src.width - 1, src.height - 1, 0, 0⟩
  have harea : (blobInfoOne src lab).area =
      (interiorCoords src.width src.height).countP
        (fun c => src.data.getD (c.2 * src.bytesperline + c.1) 0 == lab) := by
    unfold blobInfoOne
    dsimp only
    rw [ha]
    dsimp only
    omega
  have hperim : (blobInfoOne src lab).perimeter =
      (interiorCoords src.width src.height).countP
        (fun c => (src.data.getD (c.2 * src.bytesperline + c.1) 0 == lab) &&
          isBoundaryAt src.data src.bytesperline lab (c.2 * src.bytesperline + c.1)) := by
    unfold blobInfoOne
    dsimp only
    rw [hp]
    dsimp only
    omega
  have himp : ∀ c ∈ interiorCoords src.width src.height,
      ((src.data.getD (c.2 * src.bytesperline + c.1) 0 == lab) &&
        isBoundaryAt src.data src.bytesperline lab (c.2 * src.bytesperline + c.1)) = true →
      (src.data.getD (c.2 * src.bytesperline + c.1) 0 == lab) = true := by
    intro c _ hc
    rw [Bool.and_eq_true] at hc
    exact hc.1
  refine ⟨Nat.zero_le _, ?_, ?_⟩
  · rw [harea, hperim]
    exact countP_imp_le _ himp
  · rw [harea, hperim]
    rw [countP_imp_eq_iff _ himp]
    constructor
    · intro hall c hc hm
      have := hall c hc (by simpa using hm)
      rw [Bool.and_eq_true] at this
      exact this.2
    · intro hall c hc hm
      have hmE : src.data.getD (c.2 * src.bytesperline + c.1) 0 = lab := by simpa using hm
      rw [Bool.and_eq_true]
      exact ⟨hm, hall c hc hmE⟩

/-! ### Claim C5: labeling completeness -/

/-- Row-major position arithmetic: the column of `y * w + x`. -/
theorem posIdx_mod {w : Nat} (x y : Nat) (hx : x < w) : (y * w + x) % w = x := by
  rw [Nat.mul_comm, Nat.mul_add_mod, Nat.mod_eq_of_lt hx]

/-- Row-major position arithmetic: the row of `y * w + x`. -/
theorem posIdx_div {w : Nat} (x y : Nat) (hx : x < w) : (y * w + x) / w = y := by
  rw [Nat.mul_comm, Nat.mul_add_div (by omega), Nat.div_eq_of_lt hx]
  omega

/-- Row-major positions determine their coordinates. -/
theorem posIdx_inj {w : Nat} {x y u v : Nat} (hx : x < w) (hu : u < w)
    (h : y * w + x = v * w + u) : x = u ∧ y = v := by
  constructor
  · have h2 := congrArg (fun t => t % w) h
    simpa [posIdx_mod x y hx, posIdx_mod u v hu] using h2
  · have h2 := congrArg (fun t => t / w) h
    simpa [posIdx_div x y hx, posIdx_div u v hu] using h2

/-- Distinct in-range coordinates give distinct row-major positions. -/
theorem posIdx_ne {w : Nat} {x y u v : Nat} (hx : x < w) (hu : u < w)
    (hne : ¬(x = u ∧ y = v)) : y * w + x ≠ v * w + u :=
  fun h => hne (posIdx_inj hx hu h)

/-- In-range coordinates give positions inside the raster. -/
theorem posIdx_lt {w h x y : Nat} (hx : x < w) (hy : y < h) : y * w + x < w * h := by
  have h2 : (y + 1) * w ≤ h * w := Nat.mul_le_mul_right w hy
  have h1 : y * w + x < (y + 1) * w := by rw [Nat.succ_mul]; omega
  rw [Nat.mul_comm w h]; omega

/-- `isBorderPos` in terms of coordinates. -/
theorem isBorderPos_iff {w h x y : Nat} (hx : x < w) (_hy : y < h) :
    isBorderPos w h (y * w + x) = true ↔ (x = 0 ∨ x = w - 1 ∨ y = 0 ∨ y = h - 1) := by
  simp [isBorderPos, posIdx_mod x y hx, posIdx_div x y hx]
  tauto

/-- `interiorPos` in terms of coordinates. -/
theorem interiorPos_iff {w h x y : Nat} (hx : x < w) (_hy : y < h) :
    interiorPos w h (y * w + x) = true ↔ (1 ≤ x ∧ x < w - 1 ∧ 1 ≤ y ∧ y < h - 1) := by
  simp [interiorPos, posIdx_mod x y hx, posIdx_div x y hx, and_assoc]

/-- Reading the store just written. -/
theorem upd_self (f : Nat → Nat) (i v : Nat) : upd f i v i = v := by simp [upd]

/-- Reading another cell after a store. -/
theorem upd_ne (f : Nat → Nat) (i v j : Nat) (h : j ≠ i) : upd f i v j = f j := by
  simp [upd, h]

/-- Reading the materialised destination buffer of `blobLabel`. -/
theorem getD_range_map (f : Nat → Nat) (n p : Nat) (hp : p < n) :
    ((List.range n).map f).getD p 0 = f p := by
  simp [List.getD_eq_getElem?_getD, List.getElem?_map, List.getElem?_range hp]

/-- `scanStep` leaves the state unchanged on a background pixel. -/
theorem scanStep_bg {w : Nat} {s : LState} {x y : Nat}
    (h : s.dd (y * w + x) = 0) : scanStep w s (x, y) = s := by
  unfold scanStep
  dsimp only
  rw [if_neg (not_not.mpr h)]

/-- `scanStep` allocates a fresh label on a foreground pixel with no labelled
neighbour. -/
theorem scanStep_fresh {w : Nat} {s : LState} {x y : Nat}
    (hfg : s.dd (y * w + x) ≠ 0)
    (hz : s.dd ((y - 1) * w + (x - 1)) = 0 ∧ s.dd ((y - 1) * w + x) = 0 ∧
      s.dd ((y - 1) * w + (x + 1)) = 0 ∧ s.dd (y * w + (x - 1)) = 0) :
    scanStep w s (x, y) =
      { dd := upd s.dd (y * w + x) (s.label % 256),
        lt := upd s.lt s.label s.label,
        label := s.label + 1 } := by
  unfold scanStep
  dsimp only
  rw [if_pos hfg, if_pos hz]

/-- On a foreground pixel with a labelled neighbour, `scanStep` keeps the
fresh-label counter unchanged. -/
theorem scanStep_merge_label {w : Nat} {s : LState} {x y : Nat}
    (hfg : s.dd (y * w + x) ≠ 0)
    (hz : ¬(s.dd ((y - 1) * w + (x - 1)) = 0 ∧ s.dd ((y - 1) * w + x) = 0 ∧
      s.dd ((y - 1) * w + (x + 1)) = 0 ∧ s.dd (y * w + (x - 1)) = 0)) :
    (scanStep w s (x, y)).label = s.label := by
  unfold scanStep
  dsimp only
  rw [if_pos hfg, if_neg hz]

/-- On a foreground pixel with a labelled neighbour, `scanStep` stores the
minimum resolved neighbour label (as a byte) at the pixel. -/
theorem scanStep_merge_dd {w : Nat} {s : LState} {x y : Nat}
    (hfg : s.dd (y * w + x) ≠ 0)
    (hz : ¬(s.dd ((y - 1) * w + (x - 1)) = 0 ∧ s.dd ((y - 1) * w + x) = 0 ∧
      s.dd ((y - 1) * w + (x + 1)) = 0 ∧ s.dd (y * w + (x - 1)) = 0)) :
    (scanStep w s (x, y)).dd = upd s.dd (y * w + x)
      (numOf s ((y - 1) * w + (x - 1)) ((y - 1) * w + x) ((y - 1) * w + (x + 1))
        (y * w + (x - 1)) % 256) := by
  unfold scanStep
  dsimp only
  rw [if_pos hfg, if_neg hz]

/-- `scanStep` never decreases the fresh-label counter. -/
theorem scanStep_label_le (w : Nat) (s : LState) (c : Nat × Nat) :
    s.label ≤ (scanStep w s c).label := by
  obtain ⟨x, y⟩ := c
  by_cases hfg : s.dd (y * w + x) = 0
  · rw [scanStep_bg hfg]
  · by_cases hz : s.dd ((y - 1) * w + (x - 1)) = 0 ∧ s.dd ((y - 1) * w + x) = 0 ∧
        s.dd ((y - 1) * w + (x + 1)) = 0 ∧ s.dd (y * w + (x - 1)) = 0
    · rw [scanStep_fresh hfg hz]
      dsimp only
      omega
    · rw [scanStep_merge_label hfg hz]

/-- Folding a step that never decreases the label counter never decreases it. -/
theorem foldl_label_le {β : Type} (f : LState → β → LState)
    (hf : ∀ s b, s.label ≤ (f s b).label) :
    ∀ (l : List β) (s : LState), s.label ≤ (l.foldl f s).label := by
  intro l
  induction l with
  | nil => intro s; exact le_refl _
  | cons b t ih => intro s; exact le_trans (hf s b) (ih (f s b))

/-- `pickLess` keeps the running minimum an allocated label, or keeps it at
the untouched sentinel 255 when the neighbour is unlabelled. -/
theorem pickLess_spec {s : LState} {p cur label : Nat} {Z : Prop}
    (hlab : label ≤ 256)
    (hp : s.dd p ≠ 0 → 1 ≤ s.lt (s.dd p) ∧ s.lt (s.dd p) < label)
    (hcur : (1 ≤ cur ∧ cur < label) ∨ (cur = 255 ∧ Z)) :
    (1 ≤ pickLess s p cur ∧ pickLess s p cur < label) ∨
      (pickLess s p cur = 255 ∧ (Z ∧ s.dd p = 0)) := by
  unfold pickLess
  by_cases hnz : s.dd p ≠ 0
  · obtain ⟨hl1, hl2⟩ := hp hnz
    by_cases hlt : s.lt (s.dd p) < cur
    · rw [if_pos ⟨hnz, hlt⟩]
      exact Or.inl ⟨hl1, hl2⟩
    · rw [if_neg (fun hc => hlt hc.2)]
      rcases hcur with hcur | ⟨h255, _⟩
      · exact Or.inl hcur
      · subst h255
        exact Or.inl ⟨by omega, by omega⟩
  · rw [if_neg (fun hc => hnz hc.1)]
    rcases hcur with hcur | ⟨h255, hzz⟩
    · exact Or.inl hcur
    · exact Or.inr ⟨h255, hzz, not_not.mp hnz⟩

/-- When at least one neighbour is labelled and every labelled neighbour
resolves to an allocated label, `num` is an allocated label. -/
theorem numOf_spec {s : LState} {pA pB pC pD : Nat}
    (hlab : s.label ≤ 256)
    (hA : s.dd pA ≠ 0 → 1 ≤ s.lt (s.dd pA) ∧ s.lt (s.dd pA) < s.label)
    (hB : s.dd pB ≠ 0 → 1 ≤ s.lt (s.dd pB) ∧ s.lt (s.dd pB) < s.label)
    (hC : s.dd pC ≠ 0 → 1 ≤ s.lt (s.dd pC) ∧ s.lt (s.dd pC) < s.label)
    (hD : s.dd pD ≠ 0 → 1 ≤ s.lt (s.dd pD) ∧ s.lt (s.dd pD) < s.label)
    (hsome : ¬(s.dd pA = 0 ∧ s.dd pB = 0 ∧ s.dd pC = 0 ∧ s.dd pD = 0)) :
    1 ≤ numOf s pA pB pC pD ∧ numOf s pA pB pC pD < s.label := by
  unfold numOf
  have h0 : (1 ≤ (if s.dd pA ≠ 0 then s.lt (s.dd pA) else 255) ∧
      (if s.dd pA ≠ 0 then s.lt (s.dd pA) else 255) < s.label) ∨
      ((if s.dd pA ≠ 0 then s.lt (s.dd pA) else 255) = 255 ∧ s.dd pA = 0) := by
    by_cases hnz : s.dd pA ≠ 0
    · rw [if_pos hnz]
      exact Or.inl (hA hnz)
    · rw [if_neg hnz]
      exact Or.inr ⟨rfl, not_not.mp hnz⟩
  have h1 := pickLess_spec hlab hB h0
  have h2 := pickLess_spec hlab hC h1
  have h3 := pickLess_spec hlab hD h2
  rcases h3 with h3 | ⟨-, ⟨⟨hA0, hB0⟩, hC0⟩, hD0⟩
  · exact h3
  · exact absurd ⟨hA0, hB0, hC0, hD0⟩ hsome

/-- `mergeOne` keeps the equivalence table mapping allocated labels to
allocated labels, as long as the merge target is allocated. -/
theorem mergeOne_range {dd : Nat → Nat} {num label : Nat} {lt : Nat → Nat} {p : Nat}
    (hlt : ∀ a, 1 ≤ a → a < label → 1 ≤ lt a ∧ lt a < label)
    (hnum : 1 ≤ num ∧ num < label) :
    ∀ a, 1 ≤ a → a < label →
      1 ≤ mergeOne dd num label lt p a ∧ mergeOne dd num label lt p a < label := by
  intro a h1 h2
  unfold mergeOne
  split_ifs with hd hne
  · dsimp only
    split_ifs with hc
    · exact hnum
    · exact hlt a h1 h2
  · exact hlt a h1 h2
  · exact hlt a h1 h2

/-- On a foreground pixel with a labelled neighbour, `scanStep` keeps the
equivalence table mapping allocated labels to allocated labels. -/
theorem scanStep_merge_lt {w : Nat} {s : LState} {x y : Nat}
    (hfg : s.dd (y * w + x) ≠ 0)
    (hz : ¬(s.dd ((y - 1) * w + (x - 1)) = 0 ∧ s.dd ((y - 1) * w + x) = 0 ∧
      s.dd ((y - 1) * w + (x + 1)) = 0 ∧ s.dd (y * w + (x - 1)) = 0))
    (hlt : ∀ a, 1 ≤ a → a < s.label → 1 ≤ s.lt a ∧ s.lt a < s.label)
    (hnum : 1 ≤ numOf s ((y - 1) * w + (x - 1)) ((y - 1) * w + x)
        ((y - 1) * w + (x + 1)) (y * w + (x - 1)) ∧
      numOf s ((y - 1) * w + (x - 1)) ((y - 1) * w + x)
        ((y - 1) * w + (x + 1)) (y * w + (x - 1)) < s.label) :
    ∀ a, 1 ≤ a → a < s.label →
      1 ≤ (scanStep w s (x, y)).lt a ∧ (scanStep w s (x, y)).lt a < s.label := by
  intro a h1 h2
  unfold scanStep
  dsimp only
  rw [if_pos hfg, if_neg hz]
  dsimp only
  have hbase : ∀ b, 1 ≤ b → b < s.label →
      1 ≤ upd s.lt (numOf s ((y - 1) * w + (x - 1)) ((y - 1) * w + x)
          ((y - 1) * w + (x + 1)) (y * w + (x - 1)))
        (numOf s ((y - 1) * w + (x - 1)) ((y - 1) * w + x)
          ((y - 1) * w + (x + 1)) (y * w + (x - 1))) b ∧
      upd s.lt (numOf s ((y - 1) * w + (x - 1)) ((y - 1) * w + x)
          ((y - 1) * w + (x + 1)) (y * w + (x - 1)))
        (numOf s ((y - 1) * w + (x - 1)) ((y - 1) * w + x)
          ((y - 1) * w + (x + 1)) (y * w + (x - 1))) b < s.label := by
    intro b b1 b2
    by_cases hb : b = numOf s ((y - 1) * w + (x - 1)) ((y - 1) * w + x)
        ((y - 1) * w + (x + 1)) (y * w + (x - 1))
    · rw [hb, upd_self]
      exact hnum
    · rw [upd_ne _ _ _ _ hb]
      exact hlt b b1 b2
  exact mergeOne_range (mergeOne_range (mergeOne_range (mergeOne_range hbase hnum)
    hnum) hnum) hnum a h1 h2

/-- Every pixel that is on the border, or is an already scanned interior
pixel, holds 0 or an allocated label. -/
theorem nb_val {w h : Nat} {norm : Nat → Nat} {iso : Prop}
    {procd : Nat → Nat → Prop} {s : LState}
    (hinv : ScanInv w h norm iso procd s)
    {u v : Nat} (hu : u < w) (hv : v < h)
    (hcase : u = 0 ∨ u = w - 1 ∨ v = 0 ∨ v = h - 1 ∨
      (1 ≤ u ∧ u ≤ w - 2 ∧ 1 ≤ v ∧ v ≤ h - 2 ∧ procd u v)) :
    s.dd (v * w + u) = 0 ∨ (1 ≤ s.dd (v * w + u) ∧ s.dd (v * w + u) < s.label) := by
  obtain ⟨-, -, i3, -, i5, -, -⟩ := hinv
  rcases hcase with hc | hc | hc | hc | ⟨h1, h2, h3, h4, hp⟩
  · exact Or.inl (i3 _ ((isBorderPos_iff hu hv).2 (Or.inl hc)))
  · exact Or.inl (i3 _ ((isBorderPos_iff hu hv).2 (Or.inr (Or.inl hc))))
  · exact Or.inl (i3 _ ((isBorderPos_iff hu hv).2 (Or.inr (Or.inr (Or.inl hc)))))
  · exact Or.inl (i3 _ ((isBorderPos_iff hu hv).2 (Or.inr (Or.inr (Or.inr hc)))))
  · by_cases hz : norm (v * w + u) = 0
    · exact Or.inl ((i5 u v h1 h2 h3 h4 hp).1 hz)
    · exact Or.inr ((i5 u v h1 h2 h3 h4 hp).2 hz)

/-- Under pairwise isolation, a border or already scanned pixel 8-adjacent to
a foreground pixel is unlabelled. -/
theorem iso_nb_zero {w h : Nat} {norm : Nat → Nat} {iso : Prop}
    {procd : Nat → Nat → Prop} {s : LState}
    (hinv : ScanInv w h norm iso procd s)
    (hId : IsolatedFg w h norm) {X Y u v : Nat}
    (hXw : X < w) (hYh : Y < h) (hnormX : norm (Y * w + X) ≠ 0)
    (hu : u < w) (hv : v < h)
    (hadj : (u + 1 = X ∨ u = X ∨ u = X + 1) ∧ (v + 1 = Y ∨ v = Y) ∧ ¬(u = X ∧ v = Y))
    (hcase : u = 0 ∨ u = w - 1 ∨ v = 0 ∨ v = h - 1 ∨
      (1 ≤ u ∧ u ≤ w - 2 ∧ 1 ≤ v ∧ v ≤ h - 2 ∧ procd u v)) :
    s.dd (v * w + u) = 0 := by
  obtain ⟨-, -, i3, -, i5, -, -⟩ := hinv
  rcases hcase with hc | hc | hc | hc | ⟨h1, h2, h3, h4, hp⟩
  · exact i3 _ ((isBorderPos_iff hu hv).2 (Or.inl hc))
  · exact i3 _ ((isBorderPos_iff hu hv).2 (Or.inr (Or.inl hc)))
  · exact i3 _ ((isBorderPos_iff hu hv).2 (Or.inr (Or.inr (Or.inl hc))))
  · exact i3 _ ((isBorderPos_iff hu hv).2 (Or.inr (Or.inr (Or.inr hc))))
  · by_cases hz : norm (v * w + u) = 0
    · exact (i5 u v h1 h2 h3 h4 hp).1 hz
    · exfalso
      have hfar := hId u hu v hv X hXw Y hYh
      obtain ⟨ha1, ha2, ha3⟩ := hadj
      simp [isoPairOk] at hfar
      omega

/-- `ScanInv` only inspects the scanned-pixel predicate on interior
coordinates, so it transports along equivalences there. -/
theorem ScanInv_congr {w h : Nat} {norm : Nat → Nat} {iso : Prop} {s : LState}
    {p q : Nat → Nat → Prop}
    (hpq : ∀ x y, 1 ≤ x → x ≤ w - 2 → 1 ≤ y → y ≤ h - 2 → (p x y ↔ q x y))
    (hs : ScanInv w h norm iso p s) : ScanInv w h norm iso q s := by
  obtain ⟨h1, h2, h3, h4, h5, h6, h7⟩ := hs
  refine ⟨h1, h2, h3, ?_, ?_, h6, ?_⟩
  · intro x y a1 a2 a3 a4 hq
    exact h4 x y a1 a2 a3 a4 (fun hp => hq ((hpq x y a1 a2 a3 a4).1 hp))
  · intro x y a1 a2 a3 a4 hq
    exact h5 x y a1 a2 a3 a4 ((hpq x y a1 a2 a3 a4).2 hq)
  · intro hI x y u v b1 b2 b3 b4 b5 b6 b7 b8 hqx hqu hnx hnu hne
    exact h7 hI x y u v b1 b2 b3 b4 b5 b6 b7 b8 ((hpq x y b1 b2 b3 b4).2 hqx)
      ((hpq u v b5 b6 b7 b8).2 hqu) hnx hnu hne

set_option maxHeartbeats 800000 in
/-- One `scanStep` preserves the labeling invariant, extending the scanned
region by the current pixel. -/
theorem scanStep_inv {w h : Nat} {norm : Nat → Nat} {iso : Prop} {s : LState}
    {X Y : Nat}
    (hiso : iso → IsolatedFg w h norm)
    (hX1 : 1 ≤ X) (hX2 : X ≤ w - 2) (hY1 : 1 ≤ Y) (hY2 : Y ≤ h - 2)
    (hinv : ScanInv w h norm iso (fun x y => y < Y ∨ (y = Y ∧ x < X)) s)
    (hbound : (scanStep w s (X, Y)).label ≤ 256) :
    ScanInv w h norm iso (fun x y => y < Y ∨ (y = Y ∧ x < X + 1))
      (scanStep w s (X, Y)) := by
  obtain ⟨i1, i2, i3, i4, i5, i6, i7⟩ := hinv
  have hw3 : 3 ≤ w := by omega
  have hh3 : 3 ≤ h := by omega
  have hXw : X < w := by omega
  have hYh : Y < h := by omega
  have hXunproc : ¬(Y < Y ∨ (Y = Y ∧ X < X)) := by omega
  have hddX : s.dd (Y * w + X) = norm (Y * w + X) := i4 X Y hX1 hX2 hY1 hY2 hXunproc
  by_cases hfg : s.dd (Y * w + X) = 0
  · -- background pixel: the state is unchanged
    rw [scanStep_bg hfg]
    have hnorm0 : norm (Y * w + X) = 0 := by rw [← hddX]; exact hfg
    refine ⟨i1, i2, i3, ?_, ?_, i6, ?_⟩
    · intro x y a1 a2 a3 a4 hnp
      refine i4 x y a1 a2 a3 a4 ?_
      intro hp
      rcases hp with hp | ⟨he, hx⟩
      · exact hnp (Or.inl hp)
      · exact hnp (Or.inr ⟨he, by omega⟩)
    · intro x y a1 a2 a3 a4 hp
      by_cases hxy : x = X ∧ y = Y
      · obtain ⟨hx, hy⟩ := hxy
        subst hx; subst hy
        constructor
        · intro _; exact hfg
        · intro hnz; exact absurd hnorm0 hnz
      · refine i5 x y a1 a2 a3 a4 ?_
        rcases hp with hp | ⟨he, hx⟩
        · exact Or.inl hp
        · right
          refine ⟨he, ?_⟩
          by_cases hxX : x = X
          · exact absurd ⟨hxX, he⟩ hxy
          · omega
    · intro hI x y u v b1 b2 b3 b4 b5 b6 b7 b8 hpx hpu hnx hnu hne
      have hold : ∀ {a b : Nat}, a ≤ w - 2 → norm (b * w + a) ≠ 0 →
          (b < Y ∨ (b = Y ∧ a < X + 1)) → (b < Y ∨ (b = Y ∧ a < X)) := by
        intro a b ha hz hp
        rcases hp with hp | ⟨he, hx⟩
        · exact Or.inl hp
        · right
          refine ⟨he, ?_⟩
          by_cases haX : a = X
          · subst haX; subst he; exact absurd hnorm0 hz
          · omega
      exact i7 hI x y u v b1 b2 b3 b4 b5 b6 b7 b8 (hold b2 hnx hpx) (hold b6 hnu hpu)
        hnx hnu hne
  · have hnormX : norm (Y * w + X) ≠ 0 := by rw [← hddX]; exact hfg
    by_cases hz4 : s.dd ((Y - 1) * w + (X - 1)) = 0 ∧ s.dd ((Y - 1) * w + X) = 0 ∧
        s.dd ((Y - 1) * w + (X + 1)) = 0 ∧ s.dd (Y * w + (X - 1)) = 0
    · -- fresh label
      rw [scanStep_fresh hfg hz4] at hbound ⊢
      dsimp only at hbound
      have hmod : s.label % 256 = s.label := Nat.mod_eq_of_lt (by omega)
      unfold ScanInv
      dsimp only
      refine ⟨by omega, ?_, ?_, ?_, ?_, ?_, ?_⟩
      · intro a a1 a2
        by_cases ha : a = s.label
        · rw [ha, upd_self]
          omega
        · rw [upd_ne _ _ _ _ ha]
          have := i2 a a1 (by omega)
          omega
      · intro p hbp
        have hpne : p ≠ Y * w + X := by
          intro he
          subst he
          have := (isBorderPos_iff hXw hYh).1 hbp
          omega
        rw [upd_ne _ _ _ _ hpne]
        exact i3 p hbp
      · intro x y a1 a2 a3 a4 hnp
        have hne : ¬(x = X ∧ y = Y) := by
          rintro ⟨hx, hy⟩
          exact hnp (Or.inr ⟨hy, by omega⟩)
        rw [upd_ne _ _ _ _ (posIdx_ne (by omega) (by omega) hne)]
        refine i4 x y a1 a2 a3 a4 ?_
        intro hp
        rcases hp with hp | ⟨he, hx⟩
        · exact hnp (Or.inl hp)
        · exact hnp (Or.inr ⟨he, by omega⟩)
      · intro x y a1 a2 a3 a4 hp
        by_cases hxy : x = X ∧ y = Y
        · obtain ⟨hx, hy⟩ := hxy
          subst hx; subst hy
          rw [upd_self]
          constructor
          · intro h0; exact absurd h0 hnormX
          · intro _; rw [hmod]; omega
        · rw [upd_ne _ _ _ _ (posIdx_ne (by omega) (by omega) hxy)]
          have hp' : y < Y ∨ (y = Y ∧ x < X) := by
            rcases hp with hp | ⟨he, hx⟩
            · exact Or.inl hp
            · right
              refine ⟨he, ?_⟩
              by_cases hxX : x = X
              · exact absurd ⟨hxX, he⟩ hxy
              · omega
          have := i5 x y a1 a2 a3 a4 hp'
          constructor
          · exact this.1
          · intro hnz
            have h2 := this.2 hnz
            omega
      · intro hI a a1 a2
        by_cases ha : a = s.label
        · rw [ha, upd_self]
        · rw [upd_ne _ _ _ _ ha]
          exact i6 hI a a1 (by omega)
      · intro hI x y u v b1 b2 b3 b4 b5 b6 b7 b8 hpx hpu hnx hnu hne
        by_cases hxy : x = X ∧ y = Y
        · obtain ⟨hx, hy⟩ := hxy
          have huv : ¬(u = X ∧ v = Y) := fun hc =>
            hne ⟨hx.trans hc.1.symm, hy.trans hc.2.symm⟩
          rw [hx, hy, upd_self, upd_ne _ _ _ _ (posIdx_ne (by omega) (by omega) huv)]
          have hpu' : v < Y ∨ (v = Y ∧ u < X) := by
            rcases hpu with hp | ⟨he, hx⟩
            · exact Or.inl hp
            · right
              refine ⟨he, ?_⟩
              by_cases huX : u = X
              · exact absurd ⟨huX, he⟩ huv
              · omega
          have := (i5 u v b5 b6 b7 b8 hpu').2 hnu
          rw [hmod]
          omega
        · by_cases huv : u = X ∧ v = Y
          · obtain ⟨hu, hv⟩ := huv
            rw [hu, hv, upd_self, upd_ne _ _ _ _ (posIdx_ne (by omega) (by omega) hxy)]
            have hpx' : y < Y ∨ (y = Y ∧ x < X) := by
              rcases hpx with hp | ⟨he, hx⟩
              · exact Or.inl hp
              · right
                refine ⟨he, ?_⟩
                by_cases hxX : x = X
                · exact absurd ⟨hxX, he⟩ hxy
                · omega
            have := (i5 x y b1 b2 b3 b4 hpx').2 hnx
            rw [hmod]
            omega
          · rw [upd_ne _ _ _ _ (posIdx_ne (by omega) (by omega) hxy),
              upd_ne _ _ _ _ (posIdx_ne (by omega) (by omega) huv)]
            have hpx' : y < Y ∨ (y = Y ∧ x < X) := by
              rcases hpx with hp | ⟨he, hx⟩
              · exact Or.inl hp
              · right
                refine ⟨he, ?_⟩
                by_cases hxX : x = X
                · exact absurd ⟨hxX, he⟩ hxy
                · omega
            have hpu' : v < Y ∨ (v = Y ∧ u < X) := by
              rcases hpu with hp | ⟨he, hx⟩
              · exact Or.inl hp
              · right
                refine ⟨he, ?_⟩
                by_cases huX : u = X
                · exact absurd ⟨huX, he⟩ huv
                · omega
            exact i7 hI x y u v b1 b2 b3 b4 b5 b6 b7 b8 hpx' hpu' hnx hnu hne
    · -- merge with a labelled neighbour
      have hvA' : s.dd ((Y - 1) * w + (X - 1)) ≠ 0 →
          1 ≤ s.lt (s.dd ((Y - 1) * w + (X - 1))) ∧
          s.lt (s.dd ((Y - 1) * w + (X - 1))) < s.label := by
        intro hnz
        have hcA : X - 1 = 0 ∨ X - 1 = w - 1 ∨ Y - 1 = 0 ∨ Y - 1 = h - 1 ∨
            (1 ≤ X - 1 ∧ X - 1 ≤ w - 2 ∧ 1 ≤ Y - 1 ∧ Y - 1 ≤ h - 2 ∧
              (Y - 1 < Y ∨ (Y - 1 = Y ∧ X - 1 < X))) := by
          by_cases h0 : X - 1 = 0
          · exact Or.inl h0
          · by_cases h1 : Y - 1 = 0
            · exact Or.inr (Or.inr (Or.inl h1))
            · exact Or.inr (Or.inr (Or.inr (Or.inr
                ⟨by omega, by omega, by omega, by omega, Or.inl (by omega)⟩)))
        have hvA := nb_val ⟨i1, i2, i3, i4, i5, i6, i7⟩
          (show X - 1 < w by omega) (show Y - 1 < h by omega) hcA
        rcases hvA with h0 | ⟨hb1, hb2⟩
        · exact absurd h0 hnz
        · exact i2 _ hb1 hb2
      have hvB' : s.dd ((Y - 1) * w + X) ≠ 0 →
          1 ≤ s.lt (s.dd ((Y - 1) * w + X)) ∧
          s.lt (s.dd ((Y - 1) * w + X)) < s.label := by
        intro hnz
        have hcB : X = 0 ∨ X = w - 1 ∨ Y - 1 = 0 ∨ Y - 1 = h - 1 ∨
            (1 ≤ X ∧ X ≤ w - 2 ∧ 1 ≤ Y - 1 ∧ Y - 1 ≤ h - 2 ∧
              (Y - 1 < Y ∨ (Y - 1 = Y ∧ X < X))) := by
          by_cases h1 : Y - 1 = 0
          · exact Or.inr (Or.inr (Or.inl h1))
          · exact Or.inr (Or.inr (Or.inr (Or.inr
              ⟨hX1, hX2, by omega, by omega, Or.inl (by omega)⟩)))
        have hvB := nb_val ⟨i1, i2, i3, i4, i5, i6, i7⟩
          (show X < w by omega) (show Y - 1 < h by omega) hcB
        rcases hvB with h0 | ⟨hb1, hb2⟩
        · exact absurd h0 hnz
        · exact i2 _ hb1 hb2
      have hvC' : s.dd ((Y - 1) * w + (X + 1)) ≠ 0 →
          1 ≤ s.lt (s.dd ((Y - 1) * w + (X + 1))) ∧
          s.lt (s.dd ((Y - 1) * w + (X + 1))) < s.label := by
        intro hnz
        have hcC : X + 1 = 0 ∨ X + 1 = w - 1 ∨ Y - 1 = 0 ∨ Y - 1 = h - 1 ∨
            (1 ≤ X + 1 ∧ X + 1 ≤ w - 2 ∧ 1 ≤ Y - 1 ∧ Y - 1 ≤ h - 2 ∧
              (Y - 1 < Y ∨ (Y - 1 = Y ∧ X + 1 < X))) := by
          by_cases h0 : X + 1 = w - 1
          · exact Or.inr (Or.inl h0)
          · by_cases h1 : Y - 1 = 0
            · exact Or.inr (Or.inr (Or.inl h1))
            · exact Or.inr (Or.inr (Or.inr (Or.inr
                ⟨by omega, by omega, by omega, by omega, Or.inl (by omega)⟩)))
        have hvC := nb_val ⟨i1, i2, i3, i4, i5, i6, i7⟩
          (show X + 1 < w by omega) (show Y - 1 < h by omega) hcC
        rcases hvC with h0 | ⟨hb1, hb2⟩
        · exact absurd h0 hnz
        · exact i2 _ hb1 hb2
      have hvD' : s.dd (Y * w + (X - 1)) ≠ 0 →
          1 ≤ s.lt (s.dd (Y * w + (X - 1))) ∧
          s.lt (s.dd (Y * w + (X - 1))) < s.label := by
        intro hnz
        have hcD : X - 1 = 0 ∨ X - 1 = w - 1 ∨ Y = 0 ∨ Y = h - 1 ∨
            (1 ≤ X - 1 ∧ X - 1 ≤ w - 2 ∧ 1 ≤ Y ∧ Y ≤ h - 2 ∧
              (Y < Y ∨ (Y = Y ∧ X - 1 < X))) := by
          by_cases h0 : X - 1 = 0
          · exact Or.inl h0
          · exact Or.inr (Or.inr (Or.inr (Or.inr
              ⟨by omega, by omega, hY1, hY2, Or.inr ⟨rfl, by omega⟩⟩)))
        have hvD := nb_val ⟨i1, i2, i3, i4, i5, i6, i7⟩
          (show X - 1 < w by omega) (show Y < h by omega) hcD
        rcases hvD with h0 | ⟨hb1, hb2⟩
        · exact absurd h0 hnz
        · exact i2 _ hb1 hb2
      have hlab := scanStep_merge_label (s := s) hfg hz4
      have hlabS : s.label ≤ 256 := by rw [hlab] at hbound; exact hbound
      have hnum := numOf_spec hlabS hvA' hvB' hvC' hvD' hz4
      have hmodn : numOf s ((Y - 1) * w + (X - 1)) ((Y - 1) * w + X)
          ((Y - 1) * w + (X + 1)) (Y * w + (X - 1)) % 256 =
          numOf s ((Y - 1) * w + (X - 1)) ((Y - 1) * w + X)
          ((Y - 1) * w + (X + 1)) (Y * w + (X - 1)) :=
        Nat.mod_eq_of_lt (by omega)
      have hdd := scanStep_merge_dd (s := s) hfg hz4
      have hltr := scanStep_merge_lt (s := s) hfg hz4 i2 hnum
      have hisoF : iso → False := by
        intro hI
        have hId := hiso hI
        have hA0 : s.dd ((Y - 1) * w + (X - 1)) = 0 := by
          have hcA : X - 1 = 0 ∨ X - 1 = w - 1 ∨ Y - 1 = 0 ∨ Y - 1 = h - 1 ∨
              (1 ≤ X - 1 ∧ X - 1 ≤ w - 2 ∧ 1 ≤ Y - 1 ∧ Y - 1 ≤ h - 2 ∧
                (Y - 1 < Y ∨ (Y - 1 = Y ∧ X - 1 < X))) := by
            by_cases h0 : X - 1 = 0
            · exact Or.inl h0
            · by_cases h1 : Y - 1 = 0
              · exact Or.inr (Or.inr (Or.inl h1))
              · exact Or.inr (Or.inr (Or.inr (Or.inr
                  ⟨by omega, by omega, by omega, by omega, Or.inl (by omega)⟩)))
          exact iso_nb_zero ⟨i1, i2, i3, i4, i5, i6, i7⟩ hId hXw hYh hnormX
            (by omega) (by omega) ⟨Or.inl (by omega), Or.inl (by omega), by omega⟩ hcA
        have hB0 : s.dd ((Y - 1) * w + X) = 0 := by
          have hcB : X = 0 ∨ X = w - 1 ∨ Y - 1 = 0 ∨ Y - 1 = h - 1 ∨
              (1 ≤ X ∧ X ≤ w - 2 ∧ 1 ≤ Y - 1 ∧ Y - 1 ≤ h - 2 ∧
                (Y - 1 < Y ∨ (Y - 1 = Y ∧ X < X))) := by
            by_cases h1 : Y - 1 = 0
            · exact Or.inr (Or.inr (Or.inl h1))
            · exact Or.inr (Or.inr (Or.inr (Or.inr
                ⟨hX1, hX2, by omega, by omega, Or.inl (by omega)⟩)))
          exact iso_nb_zero ⟨i1, i2, i3, i4, i5, i6, i7⟩ hId hXw hYh hnormX
            (by omega) (by omega) ⟨Or.inr (Or.inl rfl), Or.inl (by omega), by omega⟩ hcB
        have hC0 : s.dd ((Y - 1) * w + (X + 1)) = 0 := by
          have hcC : X + 1 = 0 ∨ X + 1 = w - 1 ∨ Y - 1 = 0 ∨ Y - 1 = h - 1 ∨
              (1 ≤ X + 1 ∧ X + 1 ≤ w - 2 ∧ 1 ≤ Y - 1 ∧ Y - 1 ≤ h - 2 ∧
                (Y - 1 < Y ∨ (Y - 1 = Y ∧ X + 1 < X))) := by
            by_cases h0 : X + 1 = w - 1
            · exact Or.inr (Or.inl h0)
            · by_cases h1 : Y - 1 = 0
              · exact Or.inr (Or.inr (Or.inl h1))
              · exact Or.inr (Or.inr (Or.inr (Or.inr
                  ⟨by omega, by omega, by omega, by omega, Or.inl (by omega)⟩)))
          exact iso_nb_zero ⟨i1, i2, i3, i4, i5, i6, i7⟩ hId hXw hYh hnormX
            (by omega) (by omega) ⟨Or.inr (Or.inr rfl), Or.inl (by omega), by omega⟩ hcC
        have hD0 : s.dd (Y * w + (X - 1)) = 0 := by
          have hcD : X - 1 = 0 ∨ X - 1 = w - 1 ∨ Y = 0 ∨ Y = h - 1 ∨
              (1 ≤ X - 1 ∧ X - 1 ≤ w - 2 ∧ 1 ≤ Y ∧ Y ≤ h - 2 ∧
                (Y < Y ∨ (Y = Y ∧ X - 1 < X))) := by
            by_cases h0 : X - 1 = 0
            · exact Or.inl h0
            · exact Or.inr (Or.inr (Or.inr (Or.inr
                ⟨by omega, by omega, hY1, hY2, Or.inr ⟨rfl, by omega⟩⟩)))
          exact iso_nb_zero ⟨i1, i2, i3, i4, i5, i6, i7⟩ hId hXw hYh hnormX
            (by omega) (by omega) ⟨Or.inl (by omega), Or.inr rfl, by omega⟩ hcD
        exact hz4 ⟨hA0, hB0, hC0, hD0⟩
      unfold ScanInv
      refine ⟨?_, ?_, ?_, ?_, ?_, ?_, ?_⟩
      · rw [hlab]; exact i1
      · intro a a1 a2
        rw [hlab] at a2 ⊢
        exact hltr a a1 a2
      · intro p hbp
        rw [hdd]
        have hpne : p ≠ Y * w + X := by
          intro he
          subst he
          have := (isBorderPos_iff hXw hYh).1 hbp
          omega
        rw [upd_ne _ _ _ _ hpne]
        exact i3 p hbp
      · intro x y a1 a2 a3 a4 hnp
        rw [hdd]
        have hne : ¬(x = X ∧ y = Y) := by
          rintro ⟨hx, hy⟩
          exact hnp (Or.inr ⟨hy, by omega⟩)
        rw [upd_ne _ _ _ _ (posIdx_ne (by omega) (by omega) hne)]
        refine i4 x y a1 a2 a3 a4 ?_
        intro hp
        rcases hp with hp | ⟨he, hx⟩
        · exact hnp (Or.inl hp)
        · exact hnp (Or.inr ⟨he, by omega⟩)
      · intro x y a1 a2 a3 a4 hp
        rw [hdd, hlab]
        by_cases hxy : x = X ∧ y = Y
        · obtain ⟨hx, hy⟩ := hxy
          subst hx; subst hy
          rw [upd_self]
          constructor
          · intro h0; exact absurd h0 hnormX
          · intro _; rw [hmodn]; exact hnum
        · rw [upd_ne _ _ _ _ (posIdx_ne (by omega) (by omega) hxy)]
          refine i5 x y a1 a2 a3 a4 ?_
          rcases hp with hp | ⟨he, hx⟩
          · exact Or.inl hp
          · right
            refine ⟨he, ?_⟩
            by_cases hxX : x = X
            · exact absurd ⟨hxX, he⟩ hxy
            · omega
      · intro hI
        exact absurd (hisoF hI) not_false
      · intro hI
        exact absurd (hisoF hI) not_false

/-- Peeling the last element of a unit-step range. -/
theorem range_one_concat (s n : Nat) : List.range' s (n + 1) = List.range' s n ++ [s + n] := by
  have h := @List.range'_concat 1 s n
  simpa using h

/-- Splitting a unit-step range. -/
theorem range_one_split (s m n : Nat) :
    List.range' s (m + n) = List.range' s m ++ List.range' (s + m) n := by
  have h := List.range'_append s m n 1
  simp only [Nat.one_mul, Nat.mul_one] at h
  rw [Nat.add_comm m n, ← h]

/-- A whole row of `scanStep`s never decreases the fresh-label counter. -/
theorem scanRow_label_le (w y : Nat) (s : LState) : s.label ≤ (scanRow w y s).label := by
  unfold scanRow
  exact foldl_label_le _ (fun t x => scanStep_label_le w t (x, y)) _ s

/-- The whole scan never decreases the fresh-label counter. -/
theorem scanAll_label_le (w h : Nat) (s : LState) : s.label ≤ (scanAll w h s).label := by
  unfold scanAll
  exact foldl_label_le _ (fun t y => scanRow_label_le w y t) _ s

/-- The label counter after a prefix of a row is bounded by the counter after
the whole row. -/
theorem rowPartial_label_le {w : Nat} (y : Nat) (s : LState) {n : Nat} (hn : n ≤ w - 2) :
    ((List.range' 1 n).foldl (fun t x => scanStep w t (x, y)) s).label ≤
      (scanRow w y s).label := by
  unfold scanRow
  have hsplit : List.range' 1 (w - 2) = List.range' 1 n ++ List.range' (1 + n) (w - 2 - n) := by
    rw [← range_one_split]
    congr 1
    omega
  rw [hsplit, List.foldl_append]
  exact foldl_label_le _ (fun t x => scanStep_label_le w t (x, y)) _ _

/-- The label counter after a prefix of the rows is bounded by the counter
after the whole scan. -/
theorem allPartial_label_le {w h : Nat} (s : LState) {m : Nat} (hm : m ≤ h - 2) :
    ((List.range' 1 m).foldl (fun t y => scanRow w y t) s).label ≤
      (scanAll w h s).label := by
  unfold scanAll
  have hsplit : List.range' 1 (h - 2) = List.range' 1 m ++ List.range' (1 + m) (h - 2 - m) := by
    rw [← range_one_split]
    congr 1
    omega
  rw [hsplit, List.foldl_append]
  exact foldl_label_le _ (fun t y => scanRow_label_le w y t) _ _

/-- One `scanRow` preserves the labeling invariant, extending the scanned
region by one row. -/
theorem scanRow_inv {w h : Nat} {norm : Nat → Nat} {iso : Prop} {s : LState} {Y : Nat}
    (hiso : iso → IsolatedFg w h norm)
    (hY1 : 1 ≤ Y) (hY2 : Y ≤ h - 2)
    (hinv : ScanInv w h norm iso (fun _ y => y < Y) s)
    (hbound : (scanRow w Y s).label ≤ 256) :
    ScanInv w h norm iso (fun _ y => y < Y + 1) (scanRow w Y s) := by
  have H : ∀ n, n ≤ w - 2 →
      ScanInv w h norm iso (fun x y => y < Y ∨ (y = Y ∧ x < 1 + n))
        ((List.range' 1 n).foldl (fun t x => scanStep w t (x, Y)) s) := by
    intro n
    induction n with
    | zero =>
      intro _
      simp only [List.range'_zero, List.foldl_nil]
      exact ScanInv_congr (fun x y hx1 hx2 hy1 hy2 => by omega) hinv
    | succ n ih =>
      intro hn
      rw [range_one_concat, List.foldl_append]
      simp only [List.foldl_cons, List.foldl_nil]
      have hb : (scanStep w ((List.range' 1 n).foldl (fun t x => scanStep w t (x, Y)) s)
          (1 + n, Y)).label ≤ 256 := by
        have heq : (List.range' 1 (n + 1)).foldl (fun t x => scanStep w t (x, Y)) s =
            scanStep w ((List.range' 1 n).foldl (fun t x => scanStep w t (x, Y)) s)
              (1 + n, Y) := by
          rw [range_one_concat, List.foldl_append]
          simp only [List.foldl_cons, List.foldl_nil]
        have h1 := rowPartial_label_le (w := w) Y s (show n + 1 ≤ w - 2 by omega)
        rw [heq] at h1
        exact le_trans h1 hbound
      exact scanStep_inv hiso (show 1 ≤ 1 + n by omega) (show 1 + n ≤ w - 2 by omega)
        hY1 hY2 (ih (by omega)) hb
  exact ScanInv_congr (fun x y hx1 hx2 hy1 hy2 => by omega) (H (w - 2) (le_refl _))

/-- The full first labeling pass establishes the invariant with every
interior pixel scanned. -/
theorem scanAll_inv {w h : Nat} {norm : Nat → Nat} {iso : Prop} {s : LState}
    (hiso : iso → IsolatedFg w h norm)
    (hinv : ScanInv w h norm iso (fun _ y => y < 1) s)
    (hbound : (scanAll w h s).label ≤ 256) :
    ScanInv w h norm iso (fun _ y => y < 1 + (h - 2)) (scanAll w h s) := by
  have H : ∀ m, m ≤ h - 2 →
      ScanInv w h norm iso (fun _ y => y < 1 + m)
        ((List.range' 1 m).foldl (fun t y => scanRow w y t) s) := by
    intro m
    induction m with
    | zero =>
      intro _
      simp only [List.range'_zero, List.foldl_nil]
      exact hinv
    | succ m ih =>
      intro hm
      rw [range_one_concat, List.foldl_append]
      simp only [List.foldl_cons, List.foldl_nil]
      have hb : (scanRow w (1 + m)
          ((List.range' 1 m).foldl (fun t y => scanRow w y t) s)).label ≤ 256 := by
        have heq : (List.range' 1 (m + 1)).foldl (fun t y => scanRow w y t) s =
            scanRow w (1 + m) ((List.range' 1 m).foldl (fun t y => scanRow w y t) s) := by
          rw [range_one_concat, List.foldl_append]
          simp only [List.foldl_cons, List.foldl_nil]
        have h1 := allPartial_label_le (w := w) (h := h) s (show m + 1 ≤ h - 2 by omega)
        rw [heq] at h1
        exact le_trans h1 hbound
      exact scanRow_inv hiso (show 1 ≤ 1 + m by omega) (show 1 + m ≤ h - 2 by omega)
        (ih (by omega)) hb
  exact H (h - 2) (le_refl _)

/-- After the validation checks pass, the destination image returned by
`blobLabel` holds the relabelled buffer — in both final branches (zero or
more regions). -/
theorem blobLabel_dst {src dst : IVC} (n : Int)
    (h1 : ¬(src.width = 0 ∨ src.height = 0 ∨ src.data = []))
    (h2 : ¬(src.width ≠ dst.width ∨ src.height ≠ dst.height ∨ src.channels ≠ dst.channels))
    (h3 : ¬(src.channels ≠ 1)) :
    (blobLabel src dst n).2.1 = { dst with
      data := (List.range (src.width * src.height)).map
        (relabelDD (scanAll src.width src.height
          ⟨initDD src src.width src.height, fun _ => 0, 1⟩) src.width src.height) } := by
  unfold blobLabel
  rw [if_neg h1, if_neg h2, if_neg h3]
  dsimp only
  split <;> rfl

end VCTP
